import Mathlib

/-!
Verification of the tree-induction / split-search engine of the RGBD-RF
random decision forest (namespace `rdf`, header `include/rdf/RandomForest.h`).

The repository ships only the class declarations and their documentation;
every function body below is therefore modelled from the specification of the
component it implements, as close to the spec's words as the shallow
embedding allows.  Machine floats are modelled by `ℚ` where the code only
compares and adds values, and by `ℝ` where it takes logarithms (entropy).
The mutable shared sample sequence is modelled by an explicit `List Sample`
threaded through the functions that reorder it.
-/

namespace rdf

/-- LEFT/RIGHT classification outcome of a pixel under a split candidate
(the `pixelSet` enum of the header). -/
inductive pixelSet where
  | LEFT
  | RIGHT
deriving DecidableEq

/-- Pixel offset vector (`Offset` collaborator), a 2-d vector. -/
abbrev Offset := ℚ × ℚ

/-- Pixel coordinate (`PixelInfo` collaborator). -/
abbrev PixelInfo := ℚ × ℚ

/-- Classification label. -/
abbrev Label := ℕ

/-- An image is referenced only through an opaque identifier; its pixel data
is reached through the external geometry environment. -/
abbrev ImageId := ℕ

/-- `SplitCandidate`: a pair of pixel-offset vectors plus a scalar threshold;
one randomly-proposed binary test.  Immutable once created. -/
structure SplitCandidate where
  u : Offset
  v : Offset
  threshold : ℚ
deriving DecidableEq

/-- Modelled from the spec: the external image/feature-geometry collaborators
(`depthAt(imageId, coordinate) → float` and
`offsetCoordinate(coordinate, offset, depth) → coordinate`, spec §6), whose
implementations (`Image`, `PixelInfo` sources) are outside the covered core
and missing from the sources. -/
structure GeomEnv where
  depthAt : ImageId → PixelInfo → ℚ
  offsetCoordinate : PixelInfo → Offset → ℚ → PixelInfo

/-- One training sample: image id, pixel location and ground-truth label
(spec §3 `Sample`). -/
structure Sample where
  img : ImageId
  pixel : PixelInfo
  label : Label
deriving DecidableEq

/-- Modelled from the spec: `calcFeature` — the depth difference between the
two offset positions, offsets scaled by the pixel's own depth through the
external `offsetCoordinate` primitive (spec §4.1); the body is missing from
the sources. -/
def calcFeature (env : GeomEnv) (u v : Offset) (x : PixelInfo) (img : ImageId) : ℚ :=
  let d := env.depthAt img x
  env.depthAt img (env.offsetCoordinate x u d) - env.depthAt img (env.offsetCoordinate x v d)

/-- Modelled from the spec: `classifyPixel` — `LEFT` if the feature value is
below the candidate's threshold, else `RIGHT` (spec §4.1); the body is
missing from the sources. -/
def classifyPixel (env : GeomEnv) (phi : SplitCandidate) (x : PixelInfo)
    (img : ImageId) : pixelSet :=
  if calcFeature env phi.u phi.v x img < phi.threshold then .LEFT else .RIGHT

/-- Classification of a training sample by a candidate: `classifyPixel` on the
sample's own pixel and source image. -/
def classifySample (env : GeomEnv) (phi : SplitCandidate) (s : Sample) : pixelSet :=
  classifyPixel env phi s.pixel s.img

/-- Boolean form of "classified LEFT", used by the partition step. -/
def isLeft (env : GeomEnv) (phi : SplitCandidate) (s : Sample) : Bool :=
  classifySample env phi s = pixelSet.LEFT

/-- The half-open subrange `[b, e)` of the shared training-sample sequence. -/
def slice (data : List Sample) (b e : ℕ) : List Sample :=
  (data.drop b).take (e - b)

/-- Modelled from the spec: `sortData` — reorders the sample sequence within
`[b, e)` in place so that all LEFT-classified samples (under `f`) precede all
RIGHT-classified ones, and returns the split index `m` such that `[b, m)` is
LEFT and `[m, e)` is RIGHT (spec §4.4 step 3); the body is missing from the
sources.  The in-place mutation is modelled by returning the updated
sequence together with `m`. -/
def sortData (env : GeomEnv) (data : List Sample) (b e : ℕ)
    (f : SplitCandidate) : List Sample × ℕ :=
  let mid := slice data b e
  let l := mid.filter (fun s => isLeft env f s)
  let r := mid.filter (fun s => !(isLeft env f s))
  (data.take b ++ (l ++ r) ++ data.drop e, b + l.length)

/-- Binary decision-tree node (`Node`): a tagged variant — a leaf holding a
label distribution, or an internal node holding its split candidate and two
owned children (spec §3 `Node`). -/
inductive Node where
  | leaf (dist : List ℚ)
  | node (phi : SplitCandidate) (l r : Node)
deriving DecidableEq

/-- The all-zero split candidate, used as the padding payload of leaf
records. -/
def phi0 : SplitCandidate := ⟨(0, 0), (0, 0), 0⟩

/-- One record of a persisted tree stream: a one-character tag (`'L'` leaf,
`'N'` internal), the node id assigned sequentially during the writing
traversal, and the payload — the label distribution for a leaf, the split
candidate (offset pair and threshold) for an internal node (spec §4.6). -/
structure FileRec where
  tag : Char
  nid : ℕ
  dist : List ℚ
  phi : SplitCandidate
deriving DecidableEq

/-- Modelled from the spec: `writeNodeToFile` — serializes a subtree in
pre-order (node, then left subtree, then right subtree), assigning sequential
node ids; the body is missing from the sources.  Returns the record stream
and the next unused id. -/
def writeNodeToFile : Node → ℕ → List FileRec × ℕ
  | .leaf dist, nid => ([⟨'L', nid, dist, phi0⟩], nid + 1)
  | .node phi l r, nid =>
    let pl := writeNodeToFile l (nid + 1)
    let pr := writeNodeToFile r pl.2
    (⟨'N', nid, [], phi⟩ :: (pl.1 ++ pr.1), pr.2)

/-- Modelled from the spec: `writeTreeToFile` — the record stream of a whole
tree, ids starting at `0`; the body is missing from the sources. -/
def writeTreeToFile (t : Node) : List FileRec := (writeNodeToFile t 0).1

/-- A pending attachment point of the load algorithm: an internal node that
was read but whose children are not both filled yet (spec §4.6). -/
structure Pending where
  phi : SplitCandidate
  left : Option Node

/-- One attachment step of the loader: a completed subtree becomes the left
child of the top pending node if that slot is empty; otherwise it completes
the top pending node, which is popped and attached in turn; with an empty
stack the completed subtree is the root (spec §4.6). -/
def place (t : Node) : List Pending → Node ⊕ List Pending
  | [] => .inl t
  | p :: rest =>
    match p.left with
    | none => .inr ({ p with left := some t } :: rest)
    | some l => place (Node.node p.phi l t) rest

/-- Modelled from the spec: `loadNodeFromFile` — reads records in pre-order,
pushing internal nodes as pending attachment points and resolving them as
their children complete; a tag that is neither `'L'` nor `'N'`, a stream that
ends with unfilled pending nodes, or records left over after the root
completed, fail the whole load (`none`); the body is missing from the
sources. -/
def loadNodeFromFile : List FileRec → List Pending → Option Node
  | [], _ => none
  | r :: rs, stk =>
    if r.tag = 'N' then loadNodeFromFile rs (⟨r.phi, none⟩ :: stk)
    else if r.tag = 'L' then
      match place (Node.leaf r.dist) stk with
      | .inl root => if rs.isEmpty then some root else none
      | .inr stk2 => loadNodeFromFile rs stk2
    else none

/-- Modelled from the spec: `loadTreeFromFile` — loads one tree from its
record stream, starting from an empty pending stack; the body is missing
from the sources. -/
def loadTreeFromFile (recs : List FileRec) : Option Node :=
  loadNodeFromFile recs []

/-- A record whose tag is neither `'L'` nor `'N'`, used to exercise the
malformed-stream behaviour on a closed input. -/
def badRec : FileRec := ⟨'X', 0, [], phi0⟩

/-- Modelled from the spec: the normalized label distribution of an explicit
sample list — counts each label's occurrences and normalizes by the list's
size (spec §4.2); the body is missing from the sources. -/
def distOf (labelNum : ℕ) (l : List Sample) : List ℚ :=
  (List.range labelNum).map (fun i => ((l.countP (fun s => s.label == i) : ℚ)) / (l.length : ℚ))

/-- Modelled from the spec: `labelDistribution(begin, end)` — the normalized
label distribution of the subrange `[b, e)` of the training data; the body is
missing from the sources. -/
def labelDistribution (labelNum : ℕ) (data : List Sample) (b e : ℕ) : List ℚ :=
  distOf labelNum (slice data b e)

/-- Modelled from the spec: the Shannon entropy `H` of a probability vector —
`-Σ p·log2 p` over the entries with `p > 0`, zero-probability entries
contributing `0` (spec §4.2); the body is missing from the sources. -/
noncomputable def H (ps : List ℝ) : ℝ :=
  -((ps.map (fun p => if 0 < p then p * Real.logb 2 p else 0)).sum)

/-- `H` applied to a rational probability vector (distributions are stored as
rational vectors in this model). -/
noncomputable def Hq (qs : List ℚ) : ℝ := H (qs.map Rat.cast)

/-- Modelled from the spec: the information gain `G` of a split candidate
over a range — partitions the range conceptually by `classify` and returns
`setEntropy − (|L|/|range|)·H_L − (|R|/|range|)·H_R`, defined as `0` whenever
either side is empty (spec §4.2); the body is missing from the sources. -/
noncomputable def G (env : GeomEnv) (phi : SplitCandidate) (setEntropy : ℝ)
    (labelNum : ℕ) (data : List Sample) (b e : ℕ) : ℝ :=
  let mid := slice data b e
  let l := mid.filter (fun s => isLeft env phi s)
  let r := mid.filter (fun s => !(isLeft env phi s))
  if l.length = 0 ∨ r.length = 0 then 0
  else setEntropy - ((l.length : ℝ) / (mid.length : ℝ)) * Hq (distOf labelNum l)
    - ((r.length : ℝ) / (mid.length : ℝ)) * Hq (distOf labelNum r)

/-- All samples of a list carry one and the same label (vacuously true of the
empty list). -/
def allSameLabel : List Sample → Bool
  | [] => true
  | s :: rest => rest.all (fun t => t.label == s.label)

/-- Modelled from the spec: `testNode` — a node stays a leaf iff its depth
reached `maxDepth`, or its range holds at most `minSampleCount` samples, or
the range is pure, i.e. its label distribution has zero entropy (spec §4.4
step 1); the body is missing from the sources.  Purity is decided by label
comparison; theorem `testNode_stopping` identifies it with zero entropy. -/
def testNode (maxDepth minSampleCount labelNum : ℕ) (data : List Sample)
    (b e depth : ℕ) : Bool :=
  decide (maxDepth ≤ depth) || decide (e - b ≤ minSampleCount) ||
    allSameLabel (slice data b e)

/-- Training parameters of one run (`trainParams` of the header); the image
directory path, a filesystem concern, is not modelled. -/
structure trainParams where
  treeNum : ℕ
  labelNum : ℕ
  imgNum : ℕ
  maxDepth : ℕ
  minSampleCount : ℕ
  samplePixelNum : ℕ
  trainImgNum : ℕ
  offsetNum : ℕ
  thresholdNum : ℕ
  offsetRange : ℚ × ℚ
  thresholdRange : ℚ × ℚ

/-- Modelled from the spec: the recursive tree builder (`train`'s per-node
state machine, spec §4.4) — evaluate the stop condition; otherwise obtain the
best candidate from the split-search engine (abstracted as `cs`, fed the
current range), partition the range in place, force a leaf if all samples
were routed to one side, and recurse on the two sub-ranges at `depth + 1`;
the body is missing from the sources.  The shared sample sequence is
threaded through and returned. -/
def build (env : GeomEnv) (tp : trainParams) (cs : ℕ → ℕ → SplitCandidate)
    (data : List Sample) (b e depth : ℕ) : Node × List Sample :=
  if h : testNode tp.maxDepth tp.minSampleCount tp.labelNum data b e depth = true then
    (Node.leaf (labelDistribution tp.labelNum data b e), data)
  else
    let phi := cs b e
    let d1 := (sortData env data b e phi).1
    let m := (sortData env data b e phi).2
    if m = b ∨ m = e then (Node.leaf (labelDistribution tp.labelNum d1 b e), d1)
    else
      let L := build env tp cs d1 b m (depth + 1)
      let R := build env tp cs L.2 m e (depth + 1)
      (Node.node phi L.1 R.1, R.2)
termination_by tp.maxDepth - depth
decreasing_by
  all_goals
    have hd : ¬(tp.maxDepth ≤ depth) := fun hle => h (by simp [testNode, hle])
    omega

/-- Modelled from the spec: `train` — builds one tree over its whole sample
subset, root at depth `0`; the body is missing from the sources. -/
def train (env : GeomEnv) (tp : trainParams) (cs : ℕ → ℕ → SplitCandidate)
    (data : List Sample) : Node :=
  (build env tp cs data 0 data.length 0).1

/-- Modelled from the spec: `trainForest` — trains `treeNum` independent
trees, each over its own tree-specific sample subset (`treeData i`, the
randomly drawn per-tree samples being external input); the body is missing
from the sources. -/
def trainForest (env : GeomEnv) (tp : trainParams) (cs : ℕ → ℕ → SplitCandidate)
    (treeData : ℕ → List Sample) : List Node :=
  (List.range tp.treeNum).map (fun i => train env tp cs (treeData i))

/-- The depths of all leaves of a tree whose root sits at depth `d`. -/
def leafDepths : Node → ℕ → List ℕ
  | .leaf _, d => [d]
  | .node _ l r, d => leafDepths l (d + 1) ++ leafDepths r (d + 1)

/-- The reduction step of the split search: keep the incumbent unless the
challenger's gain is strictly larger (so earlier candidates win ties). -/
def better {α : Type} [LinearOrder α] (a c : SplitCandidate × α) : SplitCandidate × α :=
  if a.2 < c.2 then c else a

/-- Modelled from the spec: the locally-best `(candidate, gain)` pair of one
worker's batch — a single pass keeping the first maximum (spec §4.3); the
body is missing from the sources.  `none` only on an empty batch. -/
def bestInBatch {α : Type} [LinearOrder α] :
    List (SplitCandidate × α) → Option (SplitCandidate × α)
  | [] => none
  | c :: cs => some (cs.foldl better c)

/-- Modelled from the spec: the deterministic partition of the candidate list
into `k` equal-sized consecutive batches of `m` candidates, one per worker
(spec §4.3); the body is missing from the sources. -/
def batches {α : Type} : ℕ → ℕ → List α → List (List α)
  | 0, _, _ => []
  | k + 1, m, l => l.take m :: batches k m (l.drop m)

/-- Modelled from the spec: `bestSplitThreadFun` — each of the `k` workers
evaluates the gain of every candidate of its batch over the same range and
reports its locally-best pair (spec §4.3); the body is missing from the
sources. -/
def bestSplitThreadFun {α : Type} [LinearOrder α] (gain : SplitCandidate → α)
    (cands : List SplitCandidate) (k m : ℕ) : List (Option (SplitCandidate × α)) :=
  (batches k m cands).map (fun batch => bestInBatch (batch.map (fun c => (c, gain c))))

/-- Modelled from the spec: `bestSplitCandidate` — reduces the worker results
by maximum gain, earlier workers (hence earlier generated candidates) winning
ties (spec §4.3); the body is missing from the sources. -/
def bestSplitCandidate {α : Type} [LinearOrder α] (gain : SplitCandidate → α)
    (cands : List SplitCandidate) (k m : ℕ) : Option (SplitCandidate × α) :=
  bestInBatch ((bestSplitThreadFun gain cands k m).reduceOption)

/-- The first-wins maximum reduction lifted to optional worker results. -/
def combineOpt {α : Type} [LinearOrder α] :
    Option (SplitCandidate × α) → Option (SplitCandidate × α) → Option (SplitCandidate × α)
  | none, o => o
  | some a, none => some a
  | some a, some b => some (better a b)

/-- One entry of the node store: the parent back-pointer a `Node` carries
(none for the root) and the depth recorded for the node when it was
created. -/
structure NodeRec where
  parent : Option ℕ
  depth : ℕ
deriving DecidableEq

/-- Modelled from the spec: the id-ordered store of a tree's nodes with their
parent back-pointers — nodes are numbered in pre-order creation order, each
child holding the id of its parent, mirroring how training creates children
of a node at depth `d + 1`; the `Node` class body is missing from the
sources. -/
def storeAux : Node → Option ℕ → ℕ → ℕ → List NodeRec × ℕ
  | .leaf _, p, nid, d => ([⟨p, d⟩], nid + 1)
  | .node _ l r, p, nid, d =>
    let pl := storeAux l (some nid) (nid + 1) (d + 1)
    let pr := storeAux r (some nid) pl.2 (d + 1)
    (⟨p, d⟩ :: (pl.1 ++ pr.1), pr.2)

/-- The node store of a whole tree: ids from `0`, root parentless at depth
`0`. -/
def storeOf (t : Node) : List NodeRec := (storeAux t none 0 0).1

/-- Modelled from the spec: `getDepth` — traverses parent links up to the
root, counting edges (header: "Traverse the tree up to the root to figure
out the nodes depth"); the body is missing from the sources.  A dangling or
forward-pointing parent link stops the traversal (never the case in a store
produced by `storeOf`). -/
def getDepth (store : List NodeRec) (i : ℕ) : ℕ :=
  match store[i]? with
  | none => 0
  | some r =>
    match r.parent with
    | none => 0
    | some p => if h : p < i then getDepth store p + 1 else 0
termination_by i

/-- Well-formedness of a node store: every parent link points strictly
backwards, records the child's depth minus one, and only the initial record
is parentless (at depth `0`). -/
def storeInv (L : List NodeRec) : Prop :=
  ∀ j r, L[j]? = some r →
    (r.parent = none → j = 0 ∧ r.depth = 0) ∧
    (∀ q, r.parent = some q → q < j ∧ ∃ rq, L[q]? = some rq ∧ rq.depth + 1 = r.depth)

/-- A concrete geometry environment used to exercise the definitions on
closed inputs: the depth of a pixel is the square of its first coordinate and
offsets displace coordinates additively. -/
def env0 : GeomEnv where
  depthAt := fun _ c => c.1 * c.1
  offsetCoordinate := fun c o _ => (c.1 + o.1, c.2 + o.2)

/-- A concrete split candidate: offsets `(1,0)` and `(0,0)`, threshold `2`. -/
def phiX : SplitCandidate := ⟨(1, 0), (0, 0), 2⟩

/-- A concrete split candidate whose threshold `0` routes every sample of the
fixtures to the RIGHT side under `env0`. -/
def phiY : SplitCandidate := ⟨(1, 0), (0, 0), 0⟩

/-- A concrete sample classified LEFT by `phiX` under `env0`. -/
def sampleA : Sample := ⟨0, (0, 0), 0⟩

/-- A concrete sample classified RIGHT by `phiX` under `env0`. -/
def sampleB : Sample := ⟨0, (1, 0), 1⟩

end rdf

namespace rdf

/-- C2: for every range `[b, e)` inside the training data and every split
candidate, `sortData` returns an index `m` with `b ≤ m ≤ e`, leaves the data
outside the range untouched, permutes (hence preserves the multiset of) the
samples inside the range, and every sample of `[b, m)` is classified LEFT
while every sample of `[m, e)` is classified RIGHT. -/
theorem sortData_partitions (env : GeomEnv) (data : List Sample) (b e : ℕ)
    (f : SplitCandidate) (hbe : b ≤ e) (he : e ≤ data.length) :
    b ≤ (sortData env data b e f).2 ∧
    (sortData env data b e f).2 ≤ e ∧
    (sortData env data b e f).1.take b = data.take b ∧
    (sortData env data b e f).1.drop e = data.drop e ∧
    (slice (sortData env data b e f).1 b e).Perm (slice data b e) ∧
    (∀ s ∈ slice (sortData env data b e f).1 b (sortData env data b e f).2,
      classifySample env f s = pixelSet.LEFT) ∧
    (∀ s ∈ slice (sortData env data b e f).1 (sortData env data b e f).2 e,
      classifySample env f s = pixelSet.RIGHT) := by
  set mid := slice data b e with hmiddef
  set l := mid.filter (fun s => isLeft env f s) with hldef
  set r := mid.filter (fun s => !(isLeft env f s)) with hrdef
  have h1 : (sortData env data b e f).1 = data.take b ++ (l ++ r) ++ data.drop e := rfl
  have h2 : (sortData env data b e f).2 = b + l.length := rfl
  have htb : (data.take b).length = b := by
    simp only [List.length_take]
    omega
  have hperm : (l ++ r).Perm mid := List.filter_append_perm _ mid
  have hmidlen : mid.length = e - b := by
    simp only [hmiddef, slice, List.length_take, List.length_drop]
    omega
  have hlrlen : l.length + r.length = e - b := by
    have h := hperm.length_eq
    simp only [List.length_append, hmidlen] at h
    exact h
  have hlen2 : (l ++ r).length = e - b := by
    simp only [List.length_append]
    omega
  have hdrop_b : (sortData env data b e f).1.drop b = (l ++ r) ++ data.drop e := by
    rw [h1, List.append_assoc, List.drop_left' htb]
  have hlen3 : (data.take b ++ (l ++ r)).length = e := by
    simp only [List.length_append, htb]
    omega
  have hdrop_e : (sortData env data b e f).1.drop e = data.drop e := by
    rw [h1, List.drop_left' hlen3]
  have htake_b : (sortData env data b e f).1.take b = data.take b := by
    rw [h1, List.append_assoc, List.take_left' htb]
  have hslice_be : slice (sortData env data b e f).1 b e = l ++ r := by
    rw [slice, hdrop_b, List.take_left' hlen2]
  have hslice_bm : slice (sortData env data b e f).1 b (sortData env data b e f).2 = l := by
    rw [slice, hdrop_b, h2, List.append_assoc]
    have hsub : b + l.length - b = l.length := by omega
    rw [hsub, List.take_left' rfl]
  have hregroup : (sortData env data b e f).1 = (data.take b ++ l) ++ (r ++ data.drop e) := by
    rw [h1]
    simp only [List.append_assoc]
  have hlen4 : (data.take b ++ l).length = b + l.length := by
    simp only [List.length_append, htb]
  have hslice_me : slice (sortData env data b e f).1 (sortData env data b e f).2 e = r := by
    rw [slice, hregroup, h2, List.drop_left' hlen4]
    have hsub : r.length = e - (b + l.length) := by omega
    exact List.take_left' hsub
  refine ⟨by omega, by omega, htake_b, hdrop_e, ?_, ?_, ?_⟩
  · rw [hslice_be]
    exact hperm
  · intro s hs
    rw [hslice_bm, hldef] at hs
    have := List.mem_filter.mp hs
    simpa [isLeft] using this.2
  · intro s hs
    rw [hslice_me, hrdef] at hs
    have h5 := (List.mem_filter.mp hs).2
    simp only [Bool.not_eq_true'] at h5
    simp only [isLeft, decide_eq_false_iff_not] at h5
    cases hcl : classifySample env f s with
    | LEFT => exact absurd hcl h5
    | RIGHT => rfl

/-- C2 witness: the partition theorem applied to a concrete two-sample range. -/
theorem sortData_partitions_witness :
    0 ≤ (sortData env0 [sampleB, sampleA] 0 2 phiX).2 ∧
    (sortData env0 [sampleB, sampleA] 0 2 phiX).2 ≤ 2 ∧
    (sortData env0 [sampleB, sampleA] 0 2 phiX).1.take 0 = ([sampleB, sampleA] : List Sample).take 0 ∧
    (sortData env0 [sampleB, sampleA] 0 2 phiX).1.drop 2 = ([sampleB, sampleA] : List Sample).drop 2 ∧
    (slice (sortData env0 [sampleB, sampleA] 0 2 phiX).1 0 2).Perm (slice [sampleB, sampleA] 0 2) ∧
    (∀ s ∈ slice (sortData env0 [sampleB, sampleA] 0 2 phiX).1 0
        (sortData env0 [sampleB, sampleA] 0 2 phiX).2,
      classifySample env0 phiX s = pixelSet.LEFT) ∧
    (∀ s ∈ slice (sortData env0 [sampleB, sampleA] 0 2 phiX).1
        (sortData env0 [sampleB, sampleA] 0 2 phiX).2 2,
      classifySample env0 phiX s = pixelSet.RIGHT) :=
  sortData_partitions env0 [sampleB, sampleA] 0 2 phiX (by decide) (by decide)

/-- Loading the pre-order serialization of a subtree, followed by any
remaining records, behaves like placing the subtree on the pending stack and
continuing with the remaining records. -/
theorem load_write_aux (t : Node) : ∀ (nid : ℕ) (rs : List FileRec) (stk : List Pending),
    loadNodeFromFile ((writeNodeToFile t nid).1 ++ rs) stk =
      match place t stk with
      | .inl root => if rs.isEmpty then some root else none
      | .inr stk2 => loadNodeFromFile rs stk2 := by
  induction t with
  | leaf dist =>
    intro nid rs stk
    rfl
  | node phi l r ihl ihr =>
    intro nid rs stk
    have hstep : loadNodeFromFile ((writeNodeToFile (Node.node phi l r) nid).1 ++ rs) stk =
        loadNodeFromFile ((writeNodeToFile l (nid + 1)).1 ++
          ((writeNodeToFile r (writeNodeToFile l (nid + 1)).2).1 ++ rs))
          (⟨phi, none⟩ :: stk) := by
      simp [writeNodeToFile, loadNodeFromFile, List.cons_append, List.append_assoc]
    rw [hstep, ihl]
    have hplace : place l (⟨phi, none⟩ :: stk) = Sum.inr (⟨phi, some l⟩ :: stk) := rfl
    rw [hplace]
    show loadNodeFromFile ((writeNodeToFile r (writeNodeToFile l (nid + 1)).2).1 ++ rs)
        (⟨phi, some l⟩ :: stk) = _
    rw [ihr]
    have hplace2 : place r (⟨phi, some l⟩ :: stk) = place (Node.node phi l r) stk := rfl
    rw [hplace2]

/-- C1: writing any in-memory tree with `writeTreeToFile` and reading it back
with `loadTreeFromFile` succeeds and reproduces exactly the same tree — same
leaf/internal shape in pre-order, identical split candidates and identical
leaf label distributions. -/
theorem writeTree_loadTree_roundtrip (t : Node) :
    loadTreeFromFile (writeTreeToFile t) = some t := by
  have h := load_write_aux t 0 [] []
  rw [List.append_nil] at h
  rw [loadTreeFromFile, writeTreeToFile, h]
  rfl

/-- A stream containing a record with a tag outside `{'L','N'}` always fails
to load, whatever the pending stack. -/
theorem load_badtag : ∀ (recs : List FileRec) (stk : List Pending), ∀ r ∈ recs,
    r.tag ≠ 'L' → r.tag ≠ 'N' → loadNodeFromFile recs stk = none := by
  intro recs
  induction recs with
  | nil =>
    intro stk r hr
    cases hr
  | cons a rs ih =>
    intro stk r hr hL hN
    rcases List.mem_cons.mp hr with h | h
    · subst h
      simp only [loadNodeFromFile, if_neg hN, if_neg hL]
    · by_cases hN2 : a.tag = 'N'
      · simp only [loadNodeFromFile, if_pos hN2]
        exact ih _ r h hL hN
      · by_cases hL2 : a.tag = 'L'
        · simp only [loadNodeFromFile, if_neg hN2, if_pos hL2]
          cases hpl : place (Node.leaf a.dist) stk with
          | inl root =>
            have hne : rs ≠ [] := List.ne_nil_of_mem h
            simp [List.isEmpty_iff, hne]
          | inr stk2 =>
            exact ih stk2 r h hL hN
        · simp only [loadNodeFromFile, if_neg hN2, if_neg hL2]

/-- Any strict prefix of the serialization of a subtree fails to load,
whatever the pending stack: the stream ends while pending nodes are
unfilled. -/
theorem load_truncated (t : Node) : ∀ (nid k : ℕ) (stk : List Pending),
    k < (writeNodeToFile t nid).1.length →
    loadNodeFromFile ((writeNodeToFile t nid).1.take k) stk = none := by
  induction t with
  | leaf dist =>
    intro nid k stk hk
    have hk0 : k = 0 := by
      simp only [writeNodeToFile, List.length_cons, List.length_nil] at hk
      omega
    subst hk0
    rfl
  | node phi l r ihl ihr =>
    intro nid k stk hk
    match k with
    | 0 => rfl
    | Nat.succ j =>
      have hrec : (writeNodeToFile (Node.node phi l r) nid).1 =
          ⟨'N', nid, [], phi⟩ :: ((writeNodeToFile l (nid + 1)).1 ++
            (writeNodeToFile r (writeNodeToFile l (nid + 1)).2).1) := rfl
      set pl := (writeNodeToFile l (nid + 1)).1 with hpl
      set pr := (writeNodeToFile r (writeNodeToFile l (nid + 1)).2).1 with hpr
      have hj : j < pl.length + pr.length := by
        rw [hrec] at hk
        simp only [List.length_cons, List.length_append] at hk
        omega
      have hstep : loadNodeFromFile ((writeNodeToFile (Node.node phi l r) nid).1.take (j + 1)) stk =
          loadNodeFromFile ((pl ++ pr).take j) (⟨phi, none⟩ :: stk) := by
        rw [hrec, List.take_succ_cons]
        simp [loadNodeFromFile]
      rw [hstep]
      rcases Nat.lt_trichotomy j pl.length with hlt | heq | hgt
      · rw [List.take_append_of_le_length (Nat.le_of_lt hlt)]
        exact ihl (nid + 1) j _ hlt
      · have htake : (pl ++ pr).take j = pl ++ [] := by
          rw [heq, List.append_nil]
          exact List.take_left' rfl
        rw [htake]
        have h := load_write_aux l (nid + 1) [] (⟨phi, none⟩ :: stk)
        rw [← hpl] at h
        rw [h]
        rfl
      · have hsplit : j = pl.length + (j - pl.length) := by omega
        have htake : (pl ++ pr).take j = pl ++ pr.take (j - pl.length) := by
          conv_lhs => rw [hsplit]
          exact List.take_append _
        rw [htake]
        have h := load_write_aux l (nid + 1) (pr.take (j - pl.length)) (⟨phi, none⟩ :: stk)
        rw [← hpl] at h
        rw [h]
        have hplace : place l (⟨phi, none⟩ :: stk) = Sum.inr (⟨phi, some l⟩ :: stk) := rfl
        rw [hplace]
        show loadNodeFromFile (pr.take (j - pl.length)) (⟨phi, some l⟩ :: stk) = none
        have hlt2 : j - pl.length < pr.length := by omega
        rw [hpr] at hlt2 ⊢
        exact ihr (writeNodeToFile l (nid + 1)).2 (j - pl.length) _ hlt2

/-- C7: a record stream that is not a well-formed pre-order tree encoding —
one containing a record whose tag is neither `'L'` nor `'N'`, or a strict
prefix of a valid stream (which ends while pending internal nodes still lack
children) — fails the tree load entirely: `loadTreeFromFile` returns `none`,
so no partially-constructed tree is ever visible to the caller. -/
theorem loadTree_malformed_fails :
    (∀ recs : List FileRec, (∃ r ∈ recs, r.tag ≠ 'L' ∧ r.tag ≠ 'N') →
      loadTreeFromFile recs = none) ∧
    (∀ (t : Node) (k : ℕ), k < (writeTreeToFile t).length →
      loadTreeFromFile ((writeTreeToFile t).take k) = none) := by
  constructor
  · rintro recs ⟨r, hr, hL, hN⟩
    exact load_badtag recs [] r hr hL hN
  · intro t k hk
    exact load_truncated t 0 k [] hk

/-- C7 witness: the malformation theorem applied to a concrete bad-tag stream
and to a concrete truncated stream. -/
theorem loadTree_malformed_fails_witness :
    loadTreeFromFile [badRec] = none ∧
    loadTreeFromFile ((writeTreeToFile (Node.node phi0 (Node.leaf []) (Node.leaf []))).take 1) = none :=
  ⟨loadTree_malformed_fails.1 [badRec] ⟨badRec, List.mem_singleton.mpr rfl, by decide, by decide⟩,
   loadTree_malformed_fails.2 (Node.node phi0 (Node.leaf []) (Node.leaf [])) 1 (by decide)⟩

/-- A mapped `List.range` sum equals the corresponding `Finset.range` sum. -/
theorem sum_map_range {M : Type*} [AddCommMonoid M] (f : ℕ → M) (n : ℕ) :
    ((List.range n).map f).sum = ∑ i ∈ Finset.range n, f i := by
  induction n with
  | zero => simp
  | succ n ih =>
    rw [List.range_succ, List.map_append, List.sum_append, Finset.sum_range_succ, ih]
    simp

/-- A mapped list sum as a `Finset.range` sum over positional entries. -/
theorem sum_map_eq_sum_getD {M : Type*} [AddCommMonoid M] (ps : List ℝ) (f : ℝ → M) :
    (ps.map f).sum = ∑ i ∈ Finset.range ps.length, f (ps.getD i 0) := by
  induction ps with
  | nil => simp
  | cons p t ih =>
    rw [List.map_cons, List.sum_cons, List.length_cons, Finset.sum_range_succ']
    simp only [List.getD_cons_succ, List.getD_cons_zero]
    rw [ih]
    exact add_comm _ _

/-- Quantifying over a list's members is quantifying over its positions. -/
theorem forall_mem_iff_getD (ps : List ℝ) (P : ℝ → Prop) :
    (∀ p ∈ ps, P p) ↔ ∀ i ∈ Finset.range ps.length, P (ps.getD i 0) := by
  constructor
  · intro h i hi
    rw [Finset.mem_range] at hi
    rw [ps.getD_eq_getElem 0 hi]
    exact h _ (List.getElem_mem hi)
  · intro h p hp
    obtain ⟨i, hi, rfl⟩ := List.mem_iff_getElem.mp hp
    have h2 := h i (Finset.mem_range.mpr hi)
    rwa [ps.getD_eq_getElem 0 hi] at h2

/-- Each entropy summand, on a nonnegative entry, is `negMulLog` rescaled to
base 2. -/
theorem negTerm_eq (p : ℝ) (hp : 0 ≤ p) :
    (if 0 < p then p * Real.logb 2 p else 0) = -(Real.negMulLog p / Real.log 2) := by
  rcases eq_or_lt_of_le hp with h0 | h0
  · rw [if_neg (by rw [← h0]; exact lt_irrefl 0), ← h0]
    simp
  · rw [if_pos h0, ← Real.log_div_log, Real.negMulLog]
    ring

/-- The entropy of a nonnegative vector is its `negMulLog` sum in base 2. -/
theorem H_eq_negMulLog (ps : List ℝ) (h : ∀ p ∈ ps, 0 ≤ p) :
    H ps = (∑ i ∈ Finset.range ps.length, Real.negMulLog (ps.getD i 0)) / Real.log 2 := by
  rw [H, sum_map_eq_sum_getD, Finset.sum_div]
  rw [← neg_neg (∑ i ∈ Finset.range ps.length, Real.negMulLog (ps.getD i 0) / Real.log 2),
    neg_inj, ← Finset.sum_neg_distrib]
  refine Finset.sum_congr rfl ?_
  intro i hi
  rw [Finset.mem_range] at hi
  rw [ps.getD_eq_getElem 0 hi]
  rw [negTerm_eq _ (h _ (List.getElem_mem hi))]

/-- Every entropy summand of a subprobability entry is nonpositive. -/
theorem negTerm_nonpos (p : ℝ) (h0 : 0 ≤ p) (h1 : p ≤ 1) :
    (if 0 < p then p * Real.logb 2 p else 0) ≤ 0 := by
  split_ifs with hpos
  · exact mul_nonpos_iff.mpr (Or.inl ⟨h0, Real.logb_nonpos one_lt_two h0 h1⟩)
  · exact le_refl 0

/-- C9 helper: `H` is nonnegative on subprobability vectors. -/
theorem H_nonneg (ps : List ℝ) (h : ∀ p ∈ ps, 0 ≤ p ∧ p ≤ 1) : 0 ≤ H ps := by
  rw [H, neg_nonneg, sum_map_eq_sum_getD]
  apply Finset.sum_nonpos
  intro i hi
  rw [Finset.mem_range] at hi
  rw [ps.getD_eq_getElem 0 hi]
  obtain ⟨h0, h1⟩ := h _ (List.getElem_mem hi)
  exact negTerm_nonpos _ h0 h1

/-- An entropy summand vanishes exactly on the entries `0` and `1`. -/
theorem negTerm_eq_zero_iff (p : ℝ) (h0 : 0 ≤ p) (h1 : p ≤ 1) :
    (if 0 < p then p * Real.logb 2 p else 0) = 0 ↔ (p = 0 ∨ p = 1) := by
  rcases eq_or_lt_of_le h0 with he | hpos
  · rw [if_neg (by rw [← he]; exact lt_irrefl 0)]
    simp [← he]
  · rw [if_pos hpos]
    constructor
    · intro hz
      rcases mul_eq_zero.mp hz with h2 | h2
      · exact absurd h2 (ne_of_gt hpos)
      · right
        have hl2 : Real.log 2 ≠ 0 := ne_of_gt (Real.log_pos one_lt_two)
        rw [← Real.log_div_log, div_eq_zero_iff] at h2
        rcases h2 with h3 | h3
        · rcases Real.log_eq_zero.mp h3 with h4 | h4 | h4
          · exact absurd h4 (ne_of_gt hpos)
          · exact h4
          · exact absurd h4 (by intro hc; rw [hc] at hpos; linarith)
        · exact absurd h3 hl2
    · rintro (rfl | rfl)
      · exact absurd hpos (lt_irrefl 0)
      · simp

/-- C9 helper: `H` vanishes exactly when every entry is `0` or `1`. -/
theorem H_eq_zero_iff (ps : List ℝ) (h : ∀ p ∈ ps, 0 ≤ p ∧ p ≤ 1) :
    H ps = 0 ↔ ∀ p ∈ ps, p = 0 ∨ p = 1 := by
  rw [H, neg_eq_zero, sum_map_eq_sum_getD]
  rw [Finset.sum_eq_zero_iff_of_nonpos ?hn]
  case hn =>
    intro i hi
    rw [Finset.mem_range] at hi
    rw [ps.getD_eq_getElem 0 hi]
    obtain ⟨h0, h1⟩ := h _ (List.getElem_mem hi)
    exact negTerm_nonpos _ h0 h1
  rw [← forall_mem_iff_getD ps (fun p => (if 0 < p then p * Real.logb 2 p else 0) = 0)]
  refine forall₂_congr ?_
  intro p hp
  obtain ⟨h0, h1⟩ := h p hp
  exact negTerm_eq_zero_iff p h0 h1

/-- A list sum written as a positional `Finset.range` sum. -/
theorem sum_getD (ps : List ℝ) :
    ∑ i ∈ Finset.range ps.length, ps.getD i 0 = ps.sum := by
  have h := sum_map_eq_sum_getD ps id
  simpa using h.symm

/-- A member of a nonnegative list is at most the list's sum. -/
theorem entry_le_sum (ps : List ℝ) (h0 : ∀ p ∈ ps, 0 ≤ p) :
    ∀ p ∈ ps, p ≤ ps.sum :=
  fun p hp => List.single_le_sum h0 p hp

/-- If the entries are all `0` or `1` and sum to `1`, exactly one position
holds `1`. -/
theorem all01_exists_unique (ps : List ℝ) (h01 : ∀ p ∈ ps, p = 0 ∨ p = 1)
    (hsum : ps.sum = 1) : ∃! i : Fin ps.length, ps.get i = 1 := by
  have hnn : ∀ p ∈ ps, 0 ≤ p := by
    intro p hp
    rcases h01 p hp with rfl | rfl <;> norm_num
  have hex : ∃ i : Fin ps.length, ps.get i = 1 := by
    by_contra hc
    push_neg at hc
    have hz : ∀ p ∈ ps, p = 0 := by
      intro p hp
      obtain ⟨i, hi, rfl⟩ := List.mem_iff_getElem.mp hp
      rcases h01 _ hp with h | h
      · exact h
      · have h2 := hc ⟨i, hi⟩
        rw [List.get_eq_getElem] at h2
        exact absurd h h2
    rw [List.sum_eq_zero hz] at hsum
    norm_num at hsum
  obtain ⟨i, hi⟩ := hex
  refine ⟨i, hi, ?_⟩
  intro j hj
  by_contra hne
  have hij : (j : ℕ) ≠ (i : ℕ) := fun hcc => hne (Fin.ext hcc)
  have hpair : ∑ x ∈ ({(j : ℕ), (i : ℕ)} : Finset ℕ), ps.getD x 0 = 2 := by
    rw [Finset.sum_pair hij, ps.getD_eq_getElem 0 j.isLt, ps.getD_eq_getElem 0 i.isLt]
    rw [List.get_eq_getElem] at hi hj
    rw [hi, hj]
    norm_num
  have hsub : ({(j : ℕ), (i : ℕ)} : Finset ℕ) ⊆ Finset.range ps.length := by
    intro x hx
    rcases Finset.mem_insert.mp hx with rfl | hx2
    · exact Finset.mem_range.mpr j.isLt
    · rw [Finset.mem_singleton.mp hx2]
      exact Finset.mem_range.mpr i.isLt
  have h2 : (2 : ℝ) ≤ ps.sum := by
    rw [← sum_getD, ← hpair]
    refine Finset.sum_le_sum_of_subset_of_nonneg hsub ?_
    intro x hx _
    rw [Finset.mem_range] at hx
    rw [ps.getD_eq_getElem 0 hx]
    exact hnn _ (List.getElem_mem hx)
  rw [hsum] at h2
  norm_num at h2

/-- If a nonnegative vector sums to `1` and some position holds `1`, every
entry is `0` or `1`. -/
theorem exists_one_all01 (ps : List ℝ) (h0 : ∀ p ∈ ps, 0 ≤ p) (hsum : ps.sum = 1)
    (i : Fin ps.length) (hi : ps.get i = 1) : ∀ p ∈ ps, p = 0 ∨ p = 1 := by
  have hmem : (i : ℕ) ∈ Finset.range ps.length := Finset.mem_range.mpr i.isLt
  have hrest : ∑ j ∈ (Finset.range ps.length).erase (i : ℕ), ps.getD j 0 = 0 := by
    have hadd := Finset.add_sum_erase (Finset.range ps.length) (fun j => ps.getD j 0) hmem
    simp only at hadd
    rw [sum_getD, hsum, ps.getD_eq_getElem 0 i.isLt] at hadd
    rw [List.get_eq_getElem] at hi
    rw [hi] at hadd
    linarith
  have hznn : ∀ j ∈ (Finset.range ps.length).erase (i : ℕ), 0 ≤ ps.getD j 0 := by
    intro j hj
    have hjr := Finset.mem_of_mem_erase hj
    rw [Finset.mem_range] at hjr
    rw [ps.getD_eq_getElem 0 hjr]
    exact h0 _ (List.getElem_mem hjr)
  intro p hp
  obtain ⟨j, hjlt, rfl⟩ := List.mem_iff_getElem.mp hp
  by_cases hji : j = (i : ℕ)
  · right
    subst hji
    rw [List.get_eq_getElem] at hi
    exact hi
  · left
    have hz := (Finset.sum_eq_zero_iff_of_nonneg hznn).mp hrest j
      (Finset.mem_erase.mpr ⟨hji, Finset.mem_range.mpr hjlt⟩)
    rwa [ps.getD_eq_getElem 0 hjlt] at hz

/-- C9: on every probability distribution (nonnegative entries summing to 1),
the entropy `H` lies in `[0, log2 labelCount]`; it is `0` iff exactly one
label has probability `1`, and it attains the maximum `log2 labelCount` iff
the distribution is uniform.  (Zero-probability entries contribute `0` to `H`
by definition of its summands.) -/
theorem H_characterization (ps : List ℝ) (h0 : ∀ p ∈ ps, 0 ≤ p) (h1 : ps.sum = 1) :
    0 ≤ H ps ∧ H ps ≤ Real.logb 2 ps.length ∧
    (H ps = 0 ↔ ∃! i : Fin ps.length, ps.get i = 1) ∧
    (H ps = Real.logb 2 ps.length ↔ ∀ p ∈ ps, p = ((ps.length : ℝ))⁻¹) := by
  have hne : ps ≠ [] := by
    rintro rfl
    simp at h1
  have hlen : 0 < ps.length := List.length_pos.mpr hne
  have hbounds : ∀ p ∈ ps, 0 ≤ p ∧ p ≤ 1 := by
    intro p hp
    refine ⟨h0 p hp, ?_⟩
    have h2 := entry_le_sum ps h0 p hp
    rwa [h1] at h2
  set n := ps.length with hn
  have hnR : (0 : ℝ) < (n : ℝ) := by
    exact_mod_cast hlen
  have hw : ∀ i ∈ Finset.range n, (0 : ℝ) < ((n : ℝ))⁻¹ := fun i _ => by positivity
  have hwsum : ∑ _i ∈ Finset.range n, ((n : ℝ))⁻¹ = 1 := by
    rw [Finset.sum_const, Finset.card_range, nsmul_eq_mul]
    field_simp
  have hmem : ∀ i ∈ Finset.range n, ps.getD i 0 ∈ Set.Ici (0 : ℝ) := by
    intro i hi
    rw [Finset.mem_range] at hi
    rw [ps.getD_eq_getElem 0 hi]
    exact h0 _ (List.getElem_mem hi)
  have hcenter : ∑ i ∈ Finset.range n, ((n : ℝ))⁻¹ • ps.getD i 0 = ((n : ℝ))⁻¹ := by
    simp_rw [smul_eq_mul]
    rw [← Finset.mul_sum, sum_getD, h1, mul_one]
  set S := ∑ i ∈ Finset.range n, Real.negMulLog (ps.getD i 0) with hS
  have hLHS : ∑ i ∈ Finset.range n, ((n : ℝ))⁻¹ • Real.negMulLog (ps.getD i 0)
      = ((n : ℝ))⁻¹ * S := by
    simp_rw [smul_eq_mul]
    rw [← Finset.mul_sum]
  have hneginv : Real.negMulLog (((n : ℝ))⁻¹) = ((n : ℝ))⁻¹ * Real.log n := by
    rw [Real.negMulLog, Real.log_inv]
    ring
  have hjen : ∑ i ∈ Finset.range n, ((n : ℝ))⁻¹ • Real.negMulLog (ps.getD i 0) ≤
      Real.negMulLog (∑ i ∈ Finset.range n, ((n : ℝ))⁻¹ • ps.getD i 0) :=
    Real.concaveOn_negMulLog.le_map_sum (fun i hi => (hw i hi).le) hwsum hmem
  rw [hcenter, hLHS, hneginv] at hjen
  have hSle : S ≤ Real.log n := by
    have hinv : (0 : ℝ) < ((n : ℝ))⁻¹ := by positivity
    exact le_of_mul_le_mul_left (by linarith [hjen]) hinv
  have hHS : H ps = S / Real.log 2 := H_eq_negMulLog ps h0
  have hlog2 : 0 < Real.log 2 := Real.log_pos one_lt_two
  have hlogb : Real.logb 2 ((n : ℝ)) = Real.log ((n : ℝ)) / Real.log 2 :=
    Real.log_div_log.symm
  have hstrict : (Real.negMulLog (∑ i ∈ Finset.range n, ((n : ℝ))⁻¹ • ps.getD i 0) =
      ∑ i ∈ Finset.range n, ((n : ℝ))⁻¹ • Real.negMulLog (ps.getD i 0)) ↔
      ∀ j ∈ Finset.range n, ps.getD j 0 =
        ∑ i ∈ Finset.range n, ((n : ℝ))⁻¹ • ps.getD i 0 :=
    Real.strictConcaveOn_negMulLog.map_sum_eq_iff hw hwsum hmem
  rw [hcenter, hLHS, hneginv] at hstrict
  refine ⟨H_nonneg ps hbounds, ?_, ?_, ?_⟩
  · rw [hHS, hlogb]
    gcongr
  · rw [H_eq_zero_iff ps hbounds]
    constructor
    · intro h01
      exact all01_exists_unique ps h01 h1
    · rintro ⟨i, hi, _⟩
      exact exists_one_all01 ps h0 h1 i hi
  · constructor
    · intro hmax
      rw [hHS, hlogb] at hmax
      have hSeq : S = Real.log n := by
        field_simp at hmax
        linarith [hmax]
      have heq : ((n : ℝ))⁻¹ * Real.log ((n : ℝ)) = ((n : ℝ))⁻¹ * S := by
        rw [hSeq]
      have huni := hstrict.mp heq
      rw [forall_mem_iff_getD ps (fun p => p = ((n : ℝ))⁻¹)]
      intro i hi
      exact huni i hi
    · intro huniform
      have huni : ∀ j ∈ Finset.range n, ps.getD j 0 = ((n : ℝ))⁻¹ :=
        (forall_mem_iff_getD ps (fun p => p = ((n : ℝ))⁻¹)).mp huniform
      have heq := hstrict.mpr huni
      have hninv : ((n : ℝ))⁻¹ ≠ 0 := by positivity
      have hSeq : S = Real.log n := (mul_left_cancel₀ hninv heq).symm
      rw [hHS, hSeq, hlogb]

/-- C9 witness: the entropy characterization applied to the concrete
distribution `[1, 0]`. -/
theorem H_characterization_witness :
    0 ≤ H [1, 0] ∧ H [1, 0] ≤ Real.logb 2 ([(1 : ℝ), 0] : List ℝ).length ∧
    (H [1, 0] = 0 ↔ ∃! i : Fin ([(1 : ℝ), 0] : List ℝ).length,
      ([(1 : ℝ), 0] : List ℝ).get i = 1) ∧
    (H [1, 0] = Real.logb 2 ([(1 : ℝ), 0] : List ℝ).length ↔
      ∀ p ∈ ([(1 : ℝ), 0] : List ℝ), p = ((([(1 : ℝ), 0] : List ℝ).length : ℝ))⁻¹) :=
  H_characterization [1, 0] (by
    intro p hp
    rcases List.mem_cons.mp hp with rfl | hp2
    · norm_num
    · rcases List.mem_cons.mp hp2 with rfl | hp3
      · norm_num
      · cases hp3) (by norm_num)

/-- The per-label counts of a sample list whose labels are all in range sum
to the list's length. -/
theorem sum_countP_labels (labelNum : ℕ) (l : List Sample)
    (hlab : ∀ s ∈ l, s.label < labelNum) :
    ∑ i ∈ Finset.range labelNum, l.countP (fun s => s.label == i) = l.length := by
  induction l with
  | nil => simp
  | cons s t ih =>
    have hst : ∀ x ∈ t, x.label < labelNum := fun x hx => hlab x (List.mem_cons_of_mem _ hx)
    have hs : s.label < labelNum := hlab s (List.mem_cons_self s t)
    simp only [List.countP_cons, List.length_cons]
    rw [Finset.sum_add_distrib, ih hst]
    congr 1
    simp only [beq_iff_eq]
    rw [Finset.sum_ite_eq (Finset.range labelNum) s.label (fun _ => 1)]
    simp [hs]

/-- Every entry of a normalized label distribution lies in `[0, 1]`. -/
theorem distOf_bounds (labelNum : ℕ) (l : List Sample) :
    ∀ q ∈ distOf labelNum l, 0 ≤ q ∧ q ≤ 1 := by
  intro q hq
  obtain ⟨i, _, rfl⟩ := List.mem_map.mp hq
  constructor
  · positivity
  · rcases Nat.eq_zero_or_pos l.length with hz | hpos
    · rw [List.length_eq_zero.mp hz]
      simp
    · rw [div_le_one (by exact_mod_cast hpos)]
      exact_mod_cast List.countP_le_length _

/-- A normalized label distribution over a nonempty, in-range sample list
sums to `1`. -/
theorem distOf_sum_one (labelNum : ℕ) (l : List Sample)
    (hlab : ∀ s ∈ l, s.label < labelNum) (hne : l ≠ []) :
    (distOf labelNum l).sum = 1 := by
  have hlen : 0 < l.length := List.length_pos.mpr hne
  have hlenQ : ((l.length : ℚ)) ≠ 0 := by
    exact_mod_cast Nat.pos_iff_ne_zero.mp hlen
  rw [distOf, sum_map_range (fun i => ((l.countP (fun s => s.label == i) : ℚ)) / (l.length : ℚ))]
  rw [← Finset.sum_div]
  rw [← Nat.cast_sum, sum_countP_labels labelNum l hlab]
  field_simp

/-- `H` of an all-zero vector is `0`. -/
theorem H_all_zero (ps : List ℝ) (h : ∀ p ∈ ps, p = 0) : H ps = 0 := by
  rw [H, neg_eq_zero]
  apply List.sum_eq_zero
  intro x hx
  obtain ⟨p, hp, rfl⟩ := List.mem_map.mp hx
  rw [h p hp]
  simp

/-- `Hq` of the distribution of the empty sample list is `0`. -/
theorem Hq_distOf_nil (labelNum : ℕ) : Hq (distOf labelNum []) = 0 := by
  apply H_all_zero
  intro p hp
  obtain ⟨q, hq, rfl⟩ := List.mem_map.mp hp
  obtain ⟨i, _, rfl⟩ := List.mem_map.mp hq
  simp

/-- A nonempty sample list with in-range labels is pure (all labels equal)
exactly when its label distribution has zero entropy. -/
theorem allSame_iff_Hq_zero (labelNum : ℕ) (l : List Sample)
    (hlab : ∀ s ∈ l, s.label < labelNum) (hne : l ≠ []) :
    allSameLabel l = true ↔ Hq (distOf labelNum l) = 0 := by
  have hlen : 0 < l.length := List.length_pos.mpr hne
  have hlenQ : ((l.length : ℚ)) ≠ 0 := by
    exact_mod_cast Nat.pos_iff_ne_zero.mp hlen
  have hbounds : ∀ p ∈ (distOf labelNum l).map (Rat.cast : ℚ → ℝ), 0 ≤ p ∧ p ≤ 1 := by
    intro p hp
    obtain ⟨q, hq, rfl⟩ := List.mem_map.mp hp
    obtain ⟨h0, h1⟩ := distOf_bounds labelNum l q hq
    constructor
    · exact_mod_cast h0
    · exact_mod_cast h1
  rw [Hq, H_eq_zero_iff _ hbounds]
  have hcast : (∀ p ∈ (distOf labelNum l).map (Rat.cast : ℚ → ℝ), p = 0 ∨ p = 1) ↔
      (∀ q ∈ distOf labelNum l, q = 0 ∨ q = 1) := by
    constructor
    · intro h q hq
      rcases h ((Rat.cast : ℚ → ℝ) q) (List.mem_map.mpr ⟨q, hq, rfl⟩) with h2 | h2
      · left
        exact_mod_cast h2
      · right
        exact_mod_cast h2
    · intro h p hp
      obtain ⟨q, hq, rfl⟩ := List.mem_map.mp hp
      rcases h q hq with rfl | rfl
      · left
        norm_num
      · right
        norm_num
  rw [hcast]
  obtain ⟨s, t, rfl⟩ : ∃ s t, l = s :: t := by
    cases l with
    | nil => exact absurd rfl hne
    | cons s t => exact ⟨s, t, rfl⟩
  constructor
  · intro hall
    have hall2 : ∀ x ∈ s :: t, x.label = s.label := by
      intro x hx
      rcases List.mem_cons.mp hx with rfl | hx2
      · rfl
      · have := List.all_eq_true.mp hall x hx2
        exact beq_iff_eq.mp this
    intro q hq
    obtain ⟨i, hi, rfl⟩ := List.mem_map.mp hq
    by_cases his : i = s.label
    · right
      subst his
      have hcnt : (s :: t).countP (fun x => x.label == s.label) = (s :: t).length := by
        rw [List.countP_eq_length]
        intro x hx
        exact beq_iff_eq.mpr (hall2 x hx)
      rw [hcnt]
      field_simp
    · left
      have hcnt : (s :: t).countP (fun x => x.label == i) = 0 := by
        rw [List.countP_eq_zero]
        intro x hx
        rw [beq_iff_eq]
        rw [hall2 x hx]
        exact fun hc => his hc.symm
      rw [hcnt]
      simp
  · intro h01
    have hsmem : s.label ∈ List.range labelNum :=
      List.mem_range.mpr (hlab s (List.mem_cons_self s t))
    have hentry : (((s :: t).countP (fun x => x.label == s.label) : ℚ)) / ((s :: t).length : ℚ)
        ∈ distOf labelNum (s :: t) :=
      List.mem_map.mpr ⟨s.label, hsmem, rfl⟩
    have hpos : 0 < (s :: t).countP (fun x => x.label == s.label) := by
      rw [List.countP_pos_iff]
      exact ⟨s, List.mem_cons_self s t, beq_iff_eq.mpr rfl⟩
    rcases h01 _ hentry with hz | ho
    · exfalso
      rw [div_eq_zero_iff] at hz
      rcases hz with hz | hz
      · have : (s :: t).countP (fun x => x.label == s.label) = 0 := by
          exact_mod_cast hz
        omega
      · exact hlenQ hz
    · have hcnt : (s :: t).countP (fun x => x.label == s.label) = (s :: t).length := by
        rw [div_eq_one_iff_eq hlenQ] at ho
        exact_mod_cast ho
      have hall := List.countP_eq_length.mp hcnt
      rw [allSameLabel, List.all_eq_true]
      intro x hx
      exact hall x (List.mem_cons_of_mem _ hx)

/-- C4: during tree induction, `testNode` declares a node a leaf exactly when
its depth reached `maxDepth`, or its range holds at most `minSampleCount`
samples, or the entropy of the range's label distribution is `0` (all samples
share one label); and on a leaf the builder materializes the range's label
distribution in the node. -/
theorem testNode_stopping (env : GeomEnv) (tp : trainParams) (cs : ℕ → ℕ → SplitCandidate)
    (data : List Sample) (b e depth : ℕ)
    (hlab : ∀ s ∈ slice data b e, s.label < tp.labelNum) :
    (testNode tp.maxDepth tp.minSampleCount tp.labelNum data b e depth = true ↔
      (tp.maxDepth ≤ depth ∨ e - b ≤ tp.minSampleCount ∨
        Hq (labelDistribution tp.labelNum data b e) = 0)) ∧
    (testNode tp.maxDepth tp.minSampleCount tp.labelNum data b e depth = true →
      build env tp cs data b e depth =
        (Node.leaf (labelDistribution tp.labelNum data b e), data)) := by
  constructor
  · rw [testNode]
    simp only [Bool.or_eq_true, decide_eq_true_eq]
    constructor
    · rintro ((h | h) | h)
      · exact Or.inl h
      · exact Or.inr (Or.inl h)
      · right
        right
        by_cases hne : slice data b e = []
        · rw [labelDistribution, hne]
          exact Hq_distOf_nil tp.labelNum
        · exact (allSame_iff_Hq_zero tp.labelNum _ hlab hne).mp h
    · rintro (h | h | h)
      · exact Or.inl (Or.inl h)
      · exact Or.inl (Or.inr h)
      · right
        by_cases hne : slice data b e = []
        · rw [hne]
          rfl
        · exact (allSame_iff_Hq_zero tp.labelNum _ hlab hne).mpr h
  · intro ht
    rw [build]
    rw [dif_pos ht]

/-- C4 witness: the stopping theorem applied to a concrete pure range. -/
theorem testNode_stopping_witness :
    (∀ s ∈ slice [sampleA] 0 1, s.label < 2) ∧
    ((testNode 4 0 2 [sampleA] 0 1 0 = true ↔
      (4 ≤ 0 ∨ 1 - 0 ≤ 0 ∨ Hq (labelDistribution 2 [sampleA] 0 1) = 0)) ∧
    (testNode 4 0 2 [sampleA] 0 1 0 = true →
      build env0 ⟨1, 2, 1, 4, 0, 1, 1, 1, 1, (0, 0), (0, 0)⟩ (fun _ _ => phiX) [sampleA] 0 1 0 =
        (Node.leaf (labelDistribution 2 [sampleA] 0 1), [sampleA]))) :=
  ⟨by decide,
   testNode_stopping env0 ⟨1, 2, 1, 4, 0, 1, 1, 1, 1, (0, 0), (0, 0)⟩ (fun _ _ => phiX)
     [sampleA] 0 1 0 (by decide)⟩

/-- The length of a normalized label distribution is the label count. -/
theorem distOf_length (labelNum : ℕ) (l : List Sample) :
    (distOf labelNum l).length = labelNum := by
  simp [distOf]

/-- The `i`-th entry of the real-cast label distribution. -/
theorem distOf_getD (labelNum : ℕ) (l : List Sample) (i : ℕ) (hi : i < labelNum) :
    ((distOf labelNum l).map (Rat.cast : ℚ → ℝ)).getD i 0 =
      ((l.countP (fun s => s.label == i) : ℝ)) / ((l.length : ℝ)) := by
  have hlen : i < ((distOf labelNum l).map (Rat.cast : ℚ → ℝ)).length := by
    simp [distOf, hi]
  rw [((distOf labelNum l).map (Rat.cast : ℚ → ℝ)).getD_eq_getElem 0 hlen]
  simp only [List.getElem_map, distOf, List.getElem_range]
  push_cast
  ring

/-- The real-cast label distribution is entrywise nonnegative. -/
theorem distOf_cast_nonneg (labelNum : ℕ) (l : List Sample) :
    ∀ p ∈ (distOf labelNum l).map (Rat.cast : ℚ → ℝ), 0 ≤ p := by
  intro p hp
  obtain ⟨q, hq, rfl⟩ := List.mem_map.mp hp
  have h := (distOf_bounds labelNum l q hq).1
  exact_mod_cast h

/-- `Hq` of a label distribution as a base-2 `negMulLog` sum over the label
counts. -/
theorem Hq_distOf_eq (labelNum : ℕ) (l : List Sample) :
    Hq (distOf labelNum l) = (∑ i ∈ Finset.range labelNum,
      Real.negMulLog (((l.countP (fun s => s.label == i) : ℝ)) / ((l.length : ℝ))))
      / Real.log 2 := by
  rw [Hq, H_eq_negMulLog _ (distOf_cast_nonneg labelNum l)]
  have hlen : ((distOf labelNum l).map (Rat.cast : ℚ → ℝ)).length = labelNum := by
    simp [distOf]
  rw [hlen]
  congr 1
  exact Finset.sum_congr rfl (fun i hi => by
    rw [distOf_getD labelNum l i (Finset.mem_range.mp hi)])

/-- Concavity of entropy under a two-way partition: the weighted child
entropies are at most the parent's entropy. -/
theorem gain_core (labelNum : ℕ) (mid L R : List Sample)
    (hperm : (L ++ R).Perm mid) (hnl : L.length ≠ 0) (hnr : R.length ≠ 0) :
    ((L.length : ℝ) / (mid.length : ℝ)) * Hq (distOf labelNum L)
      + ((R.length : ℝ) / (mid.length : ℝ)) * Hq (distOf labelNum R)
      ≤ Hq (distOf labelNum mid) := by
  have hn : mid.length = L.length + R.length := by
    have h := hperm.length_eq
    simp only [List.length_append] at h
    omega
  have hnlR : ((L.length : ℝ)) ≠ 0 := Nat.cast_ne_zero.mpr hnl
  have hnrR : ((R.length : ℝ)) ≠ 0 := Nat.cast_ne_zero.mpr hnr
  have hnR : (0 : ℝ) < ((mid.length : ℝ)) := by
    have : 0 < mid.length := by omega
    exact_mod_cast this
  have hab : ((L.length : ℝ)) / ((mid.length : ℝ)) + ((R.length : ℝ)) / ((mid.length : ℝ)) = 1 := by
    rw [div_add_div_same, hn]
    push_cast
    field_simp
  have hcnt : ∀ i : ℕ, mid.countP (fun s => s.label == i) =
      L.countP (fun s => s.label == i) + R.countP (fun s => s.label == i) := by
    intro i
    rw [← hperm.countP_eq]
    exact List.countP_append _ _ _
  have hlog2 : 0 < Real.log 2 := Real.log_pos one_lt_two
  rw [Hq_distOf_eq, Hq_distOf_eq, Hq_distOf_eq]
  have key : ((L.length : ℝ) / (mid.length : ℝ)) * (∑ i ∈ Finset.range labelNum,
        Real.negMulLog (((L.countP (fun s => s.label == i) : ℝ)) / ((L.length : ℝ))))
      + ((R.length : ℝ) / (mid.length : ℝ)) * (∑ i ∈ Finset.range labelNum,
        Real.negMulLog (((R.countP (fun s => s.label == i) : ℝ)) / ((R.length : ℝ))))
      ≤ ∑ i ∈ Finset.range labelNum,
        Real.negMulLog (((mid.countP (fun s => s.label == i) : ℝ)) / ((mid.length : ℝ))) := by
    rw [Finset.mul_sum, Finset.mul_sum, ← Finset.sum_add_distrib]
    apply Finset.sum_le_sum
    intro i _
    have hx : ((L.countP (fun s => s.label == i) : ℝ)) / ((L.length : ℝ)) ∈ Set.Ici (0 : ℝ) := by
      rw [Set.mem_Ici]
      positivity
    have hy : ((R.countP (fun s => s.label == i) : ℝ)) / ((R.length : ℝ)) ∈ Set.Ici (0 : ℝ) := by
      rw [Set.mem_Ici]
      positivity
    have ha : (0 : ℝ) ≤ ((L.length : ℝ)) / ((mid.length : ℝ)) := by positivity
    have hb : (0 : ℝ) ≤ ((R.length : ℝ)) / ((mid.length : ℝ)) := by positivity
    have hcomb := Real.concaveOn_negMulLog.2 hx hy ha hb hab
    simp only [smul_eq_mul] at hcomb
    have harg : ((L.length : ℝ)) / ((mid.length : ℝ)) *
          (((L.countP (fun s => s.label == i) : ℝ)) / ((L.length : ℝ)))
        + ((R.length : ℝ)) / ((mid.length : ℝ)) *
          (((R.countP (fun s => s.label == i) : ℝ)) / ((R.length : ℝ)))
        = ((mid.countP (fun s => s.label == i) : ℝ)) / ((mid.length : ℝ)) := by
      rw [hcnt i]
      push_cast
      field_simp
      ring
    rw [harg] at hcomb
    exact hcomb
  calc ((L.length : ℝ) / (mid.length : ℝ)) * ((∑ i ∈ Finset.range labelNum,
          Real.negMulLog (((L.countP (fun s => s.label == i) : ℝ)) / ((L.length : ℝ))))
          / Real.log 2)
      + ((R.length : ℝ) / (mid.length : ℝ)) * ((∑ i ∈ Finset.range labelNum,
          Real.negMulLog (((R.countP (fun s => s.label == i) : ℝ)) / ((R.length : ℝ))))
          / Real.log 2)
      = (((L.length : ℝ) / (mid.length : ℝ)) * (∑ i ∈ Finset.range labelNum,
          Real.negMulLog (((L.countP (fun s => s.label == i) : ℝ)) / ((L.length : ℝ))))
        + ((R.length : ℝ) / (mid.length : ℝ)) * (∑ i ∈ Finset.range labelNum,
          Real.negMulLog (((R.countP (fun s => s.label == i) : ℝ)) / ((R.length : ℝ)))))
        / Real.log 2 := by ring
    _ ≤ (∑ i ∈ Finset.range labelNum,
          Real.negMulLog (((mid.countP (fun s => s.label == i) : ℝ)) / ((mid.length : ℝ))))
        / Real.log 2 := by gcongr

/-- Under `env0`, candidate `phiX` routes `sampleA` LEFT. -/
theorem isLeft_phiX_A : isLeft env0 phiX sampleA = true := by
  norm_num [isLeft, classifySample, classifyPixel, calcFeature, env0, phiX, sampleA]

/-- Under `env0`, candidate `phiX` routes `sampleB` RIGHT. -/
theorem isLeft_phiX_B : isLeft env0 phiX sampleB = false := by
  norm_num [isLeft, classifySample, classifyPixel, calcFeature, env0, phiX, sampleB]
  decide

/-- Under `env0`, candidate `phiY` routes `sampleA` RIGHT. -/
theorem isLeft_phiY_A : isLeft env0 phiY sampleA = false := by
  norm_num [isLeft, classifySample, classifyPixel, calcFeature, env0, phiY, sampleA]
  decide

/-- Under `env0`, candidate `phiY` routes `sampleB` RIGHT. -/
theorem isLeft_phiY_B : isLeft env0 phiY sampleB = false := by
  norm_num [isLeft, classifySample, classifyPixel, calcFeature, env0, phiY, sampleB]
  decide

/-- C3 counterexample: with an arbitrary parent-entropy argument (here `-1`)
the information gain of a non-degenerate split is negative, refuting the
claim as stated for every parent entropy. -/
theorem G_neg_counterexample : G env0 phiX (-1) 2 [sampleA, sampleB] 0 2 < 0 := by
  have h3 : slice [sampleA, sampleB] 0 2 = [sampleA, sampleB] := rfl
  have h1 : List.filter (fun s => isLeft env0 phiX s) [sampleA, sampleB] = [sampleA] := by
    simp [List.filter, isLeft_phiX_A, isLeft_phiX_B]
  have h2 : List.filter (fun s => !(isLeft env0 phiX s)) [sampleA, sampleB] = [sampleB] := by
    simp [List.filter, isLeft_phiX_A, isLeft_phiX_B]
  have hA : Hq (distOf 2 [sampleA]) = 0 :=
    (allSame_iff_Hq_zero 2 [sampleA] (by decide) (by decide)).mp (by decide)
  have hB : Hq (distOf 2 [sampleB]) = 0 :=
    (allSame_iff_Hq_zero 2 [sampleB] (by decide) (by decide)).mp (by decide)
  simp only [G, h3, h1, h2]
  rw [if_neg (by simp)]
  rw [hA, hB]
  norm_num

/-- C3 (amended): with the parent entropy taken as the entropy of the range's
own label distribution — the only way the builder calls it — the information
gain `G` is nonnegative; and whenever the candidate routes every sample of
the range to one side (empty LEFT or empty RIGHT sub-partition), `G` is `0`
for every parent entropy. -/
theorem G_spec :
    (∀ (env : GeomEnv) (phi : SplitCandidate) (labelNum : ℕ)
      (data : List Sample) (b e : ℕ),
      0 ≤ G env phi (Hq (labelDistribution labelNum data b e)) labelNum data b e) ∧
    (∀ (env : GeomEnv) (phi : SplitCandidate) (setEntropy : ℝ) (labelNum : ℕ)
      (data : List Sample) (b e : ℕ),
      (((slice data b e).filter (fun s => isLeft env phi s)).length = 0 ∨
        ((slice data b e).filter (fun s => !(isLeft env phi s))).length = 0) →
      G env phi setEntropy labelNum data b e = 0) := by
  constructor
  · intro env phi labelNum data b e
    simp only [G]
    split_ifs with hcase
    · exact le_refl 0
    · push_neg at hcase
      obtain ⟨hnl, hnr⟩ := hcase
      have hkey := gain_core labelNum (slice data b e)
        ((slice data b e).filter (fun s => isLeft env phi s))
        ((slice data b e).filter (fun s => !(isLeft env phi s)))
        (List.filter_append_perm _ _) hnl hnr
      rw [labelDistribution]
      linarith [hkey]
  · intro env phi setEntropy labelNum data b e hdeg
    simp only [G]
    rw [if_pos hdeg]

/-- C3 witness: the amended gain theorem applied to a concrete degenerate
candidate that routes the whole range RIGHT. -/
theorem G_spec_witness :
    (((slice [sampleA] 0 1).filter (fun s => isLeft env0 phiY s)).length = 0 ∨
      ((slice [sampleA] 0 1).filter (fun s => !(isLeft env0 phiY s))).length = 0) ∧
    G env0 phiY 5 2 [sampleA] 0 1 = 0 :=
  ⟨Or.inl (by
    have h3 : slice [sampleA] 0 1 = [sampleA] := rfl
    rw [h3]
    simp [List.filter, isLeft_phiY_A]),
   G_spec.2 env0 phiY 5 2 [sampleA] 0 1 (Or.inl (by
    have h3 : slice [sampleA] 0 1 = [sampleA] := rfl
    rw [h3]
    simp [List.filter, isLeft_phiY_A]))⟩

/-- Unfolding of the builder when the stop condition holds: the node is a
leaf holding the range's label distribution, the data untouched. -/
theorem build_stop (env : GeomEnv) (tp : trainParams) (cs : ℕ → ℕ → SplitCandidate)
    (data : List Sample) (b e depth : ℕ)
    (h : testNode tp.maxDepth tp.minSampleCount tp.labelNum data b e depth = true) :
    build env tp cs data b e depth =
      (Node.leaf (labelDistribution tp.labelNum data b e), data) := by
  rw [build, dif_pos h]

/-- C6: when the stop condition fails but the partition of the range by the
chosen candidate routes every sample to one side (`m = begin` or `m = end`),
the builder forces a leaf over the (reordered) range instead of recursing;
the case is handled locally — `build` returns a normal node, no error is
surfaced. -/
theorem build_degenerate_leaf (env : GeomEnv) (tp : trainParams)
    (cs : ℕ → ℕ → SplitCandidate) (data : List Sample) (b e depth : ℕ)
    (h : testNode tp.maxDepth tp.minSampleCount tp.labelNum data b e depth = false)
    (hdeg : (sortData env data b e (cs b e)).2 = b ∨ (sortData env data b e (cs b e)).2 = e) :
    build env tp cs data b e depth =
      (Node.leaf (labelDistribution tp.labelNum (sortData env data b e (cs b e)).1 b e),
       (sortData env data b e (cs b e)).1) := by
  rw [build, dif_neg (by rw [h]; exact Bool.false_ne_true)]
  simp only [if_pos hdeg]

/-- Unfolding of the builder in the recursive case. -/
theorem build_node_eq (env : GeomEnv) (tp : trainParams)
    (cs : ℕ → ℕ → SplitCandidate) (data : List Sample) (b e depth : ℕ)
    (h : testNode tp.maxDepth tp.minSampleCount tp.labelNum data b e depth = false)
    (hdeg : ¬((sortData env data b e (cs b e)).2 = b ∨ (sortData env data b e (cs b e)).2 = e)) :
    build env tp cs data b e depth =
      (Node.node (cs b e)
        (build env tp cs (sortData env data b e (cs b e)).1 b
          (sortData env data b e (cs b e)).2 (depth + 1)).1
        (build env tp cs
          (build env tp cs (sortData env data b e (cs b e)).1 b
            (sortData env data b e (cs b e)).2 (depth + 1)).2
          (sortData env data b e (cs b e)).2 e (depth + 1)).1,
       (build env tp cs
          (build env tp cs (sortData env data b e (cs b e)).1 b
            (sortData env data b e (cs b e)).2 (depth + 1)).2
          (sortData env data b e (cs b e)).2 e (depth + 1)).2) := by
  rw [build, dif_neg (by rw [h]; exact Bool.false_ne_true)]
  simp only [if_neg hdeg]

/-- Leaves of a subtree built at a depth not exceeding `maxDepth` all sit at
depths not exceeding `maxDepth`. -/
theorem build_leafDepths_le : ∀ (n : ℕ) (env : GeomEnv) (tp : trainParams)
    (cs : ℕ → ℕ → SplitCandidate) (data : List Sample) (b e depth : ℕ),
    tp.maxDepth - depth ≤ n → depth ≤ tp.maxDepth →
    ∀ d ∈ leafDepths (build env tp cs data b e depth).1 depth, d ≤ tp.maxDepth := by
  intro n
  induction n with
  | zero =>
    intro env tp cs data b e depth hfuel hd d hdm
    have hstop : testNode tp.maxDepth tp.minSampleCount tp.labelNum data b e depth = true := by
      have hle : tp.maxDepth ≤ depth := by omega
      simp [testNode, hle]
    rw [build_stop env tp cs data b e depth hstop] at hdm
    simp only [leafDepths, List.mem_singleton] at hdm
    omega
  | succ n ih =>
    intro env tp cs data b e depth hfuel hd d hdm
    by_cases hstop : testNode tp.maxDepth tp.minSampleCount tp.labelNum data b e depth = true
    · rw [build_stop env tp cs data b e depth hstop] at hdm
      simp only [leafDepths, List.mem_singleton] at hdm
      omega
    · have hfalse : testNode tp.maxDepth tp.minSampleCount tp.labelNum data b e depth = false :=
        Bool.not_eq_true _ ▸ Bool.of_not_eq_true hstop
      have hdepth : depth < tp.maxDepth := by
        by_contra hc
        push_neg at hc
        exact hstop (by simp [testNode, hc])
      by_cases hdeg : (sortData env data b e (cs b e)).2 = b ∨
          (sortData env data b e (cs b e)).2 = e
      · rw [build_degenerate_leaf env tp cs data b e depth hfalse hdeg] at hdm
        simp only [leafDepths, List.mem_singleton] at hdm
        omega
      · rw [build_node_eq env tp cs data b e depth hfalse hdeg] at hdm
        simp only [leafDepths] at hdm
        rcases List.mem_append.mp hdm with hmem | hmem
        · exact ih env tp cs _ b _ (depth + 1) (by omega) (by omega) d hmem
        · exact ih env tp cs _ _ e (depth + 1) (by omega) (by omega) d hmem

/-- C5: in every tree produced by training, every leaf sits at depth at most
`maxDepth`; the recursion never descends past that bound. -/
theorem trainForest_depth_bound (env : GeomEnv) (tp : trainParams)
    (cs : ℕ → ℕ → SplitCandidate) (treeData : ℕ → List Sample) :
    ∀ t ∈ trainForest env tp cs treeData, ∀ d ∈ leafDepths t 0, d ≤ tp.maxDepth := by
  intro t ht d hd
  rw [trainForest] at ht
  obtain ⟨i, _, rfl⟩ := List.mem_map.mp ht
  rw [train] at hd
  exact build_leafDepths_le tp.maxDepth env tp cs (treeData i) 0 (treeData i).length 0
    (by omega) (by omega) d hd

/-- C5 witness: the depth bound applied to a concrete one-tree forest. -/
theorem trainForest_depth_bound_witness :
    train env0 ⟨1, 2, 1, 3, 1, 1, 1, 1, 1, (0, 0), (0, 0)⟩ (fun _ _ => phiX) [sampleA] ∈
      trainForest env0 ⟨1, 2, 1, 3, 1, 1, 1, 1, 1, (0, 0), (0, 0)⟩ (fun _ _ => phiX)
        (fun _ => [sampleA]) ∧
    0 ∈ leafDepths
      (train env0 ⟨1, 2, 1, 3, 1, 1, 1, 1, 1, (0, 0), (0, 0)⟩ (fun _ _ => phiX) [sampleA]) 0 ∧
    (0 : ℕ) ≤ 3 := by
  have hmem : train env0 ⟨1, 2, 1, 3, 1, 1, 1, 1, 1, (0, 0), (0, 0)⟩ (fun _ _ => phiX) [sampleA] ∈
      trainForest env0 ⟨1, 2, 1, 3, 1, 1, 1, 1, 1, (0, 0), (0, 0)⟩ (fun _ _ => phiX)
        (fun _ => [sampleA]) := by
    rw [trainForest]
    simp
  have hleaf : 0 ∈ leafDepths
      (train env0 ⟨1, 2, 1, 3, 1, 1, 1, 1, 1, (0, 0), (0, 0)⟩ (fun _ _ => phiX) [sampleA]) 0 := by
    rw [train, build_stop _ _ _ _ _ _ _ (by decide)]
    simp [leafDepths]
  exact ⟨hmem, hleaf,
    trainForest_depth_bound env0 ⟨1, 2, 1, 3, 1, 1, 1, 1, 1, (0, 0), (0, 0)⟩ (fun _ _ => phiX)
      (fun _ => [sampleA]) _ hmem 0 hleaf⟩

/-- C6 witness: the degenerate-split guard applied to a concrete range whose
stop test fails and whose candidate routes every sample RIGHT. -/
theorem build_degenerate_leaf_witness :
    testNode 3 1 2 [sampleA, sampleB] 0 2 0 = false ∧
    ((sortData env0 [sampleA, sampleB] 0 2 phiY).2 = 0 ∨
      (sortData env0 [sampleA, sampleB] 0 2 phiY).2 = 2) ∧
    build env0 ⟨1, 2, 1, 3, 1, 1, 1, 1, 1, (0, 0), (0, 0)⟩ (fun _ _ => phiY)
        [sampleA, sampleB] 0 2 0 =
      (Node.leaf (labelDistribution 2 (sortData env0 [sampleA, sampleB] 0 2 phiY).1 0 2),
       (sortData env0 [sampleA, sampleB] 0 2 phiY).1) := by
  have hm : (sortData env0 [sampleA, sampleB] 0 2 phiY).2 = 0 := by
    have h3 : slice [sampleA, sampleB] 0 2 = [sampleA, sampleB] := rfl
    simp only [sortData, h3]
    simp [List.filter, isLeft_phiY_A, isLeft_phiY_B]
  refine ⟨by decide, Or.inl hm, ?_⟩
  exact build_degenerate_leaf env0 ⟨1, 2, 1, 3, 1, 1, 1, 1, 1, (0, 0), (0, 0)⟩
    (fun _ _ => phiY) [sampleA, sampleB] 0 2 0 (by decide) (Or.inl hm)

/-- The first-wins maximum reduction step is associative. -/
theorem better_assoc {α : Type} [LinearOrder α] (a b c : SplitCandidate × α) :
    better (better a b) c = better a (better b c) := by
  by_cases h1 : a.2 < b.2
  · by_cases h2 : b.2 < c.2
    · simp [better, h1, h2, h1.trans h2]
    · simp [better, h1, h2]
  · by_cases h2 : b.2 < c.2
    · simp [better, h1, h2]
    · have h3 : ¬a.2 < c.2 := not_lt.mpr (le_trans (not_lt.mp h2) (not_lt.mp h1))
      simp [better, h1, h2, h3]

/-- A `better`-fold factors its initial reduction step out. -/
theorem foldl_better_init {α : Type} [LinearOrder α] :
    ∀ (ds : List (SplitCandidate × α)) (a x : SplitCandidate × α),
      ds.foldl better (better a x) = better a (ds.foldl better x) := by
  intro ds
  induction ds with
  | nil =>
    intro a x
    rfl
  | cons d ds ih =>
    intro a x
    rw [List.foldl_cons, List.foldl_cons, better_assoc, ih]

/-- Peeling the head off a batch reduction. -/
theorem bestInBatch_cons {α : Type} [LinearOrder α] (x : SplitCandidate × α)
    (R : List (SplitCandidate × α)) :
    bestInBatch (x :: R) = combineOpt (some x) (bestInBatch R) := by
  cases R with
  | nil => rfl
  | cons r rs =>
    show some (List.foldl better x (r :: rs)) =
      combineOpt (some x) (some (List.foldl better r rs))
    rw [List.foldl_cons, foldl_better_init]
    rfl

/-- The batch reduction splits over list concatenation. -/
theorem bestInBatch_append {α : Type} [LinearOrder α] (xs ys : List (SplitCandidate × α)) :
    bestInBatch (xs ++ ys) = combineOpt (bestInBatch xs) (bestInBatch ys) := by
  cases xs with
  | nil => rfl
  | cons x xs =>
    rw [List.cons_append]
    show some ((xs ++ ys).foldl better x) = _
    rw [List.foldl_append]
    cases ys with
    | nil => rfl
    | cons y ys2 =>
      show some ((y :: ys2).foldl better (xs.foldl better x)) =
        combineOpt (some (xs.foldl better x)) (some (ys2.foldl better y))
      rw [List.foldl_cons, foldl_better_init]
      rfl

/-- There are exactly `k` worker batches. -/
theorem batches_length {α : Type} : ∀ (k m : ℕ) (l : List α), (batches k m l).length = k := by
  intro k
  induction k with
  | zero =>
    intro m l
    rfl
  | succ k ih =>
    intro m l
    show (l.take m :: batches k m (l.drop m)).length = k + 1
    rw [List.length_cons, ih]

/-- With `k·m` candidates, every worker batch holds exactly `m` of them. -/
theorem batches_batch_length {α : Type} :
    ∀ (k m : ℕ) (l : List α), l.length = k * m → ∀ b ∈ batches k m l, b.length = m := by
  intro k
  induction k with
  | zero =>
    intro m l _ b hb
    exact absurd hb (List.not_mem_nil b)
  | succ k ih =>
    intro m l hlen b hb
    rw [Nat.succ_mul] at hlen
    rcases List.mem_cons.mp hb with rfl | hb2
    · rw [List.length_take, hlen]
      omega
    · refine ih m (l.drop m) ?_ b hb2
      rw [List.length_drop, hlen]
      omega

/-- With `k·m` candidates the batches repartition the candidate list
exactly. -/
theorem batches_flatten {α : Type} :
    ∀ (k m : ℕ) (l : List α), l.length = k * m → (batches k m l).flatten = l := by
  intro k
  induction k with
  | zero =>
    intro m l hlen
    rw [Nat.zero_mul] at hlen
    rw [List.length_eq_zero.mp hlen]
    rfl
  | succ k ih =>
    intro m l hlen
    rw [Nat.succ_mul] at hlen
    show (l.take m :: batches k m (l.drop m)).flatten = l
    rw [List.flatten_cons, ih m (l.drop m) (by rw [List.length_drop, hlen]; omega)]
    exact List.take_append_drop m l

/-- The two-level reduction over nonempty batches equals the single-pass
reduction over the flattened candidate list. -/
theorem reduce_batches {α : Type} [LinearOrder α] (gain : SplitCandidate → α) :
    ∀ (k m : ℕ) (l : List SplitCandidate), (∀ b ∈ batches k m l, b ≠ []) →
    bestInBatch (((batches k m l).map
        (fun batch => bestInBatch (batch.map (fun x => (x, gain x))))).reduceOption)
      = bestInBatch ((batches k m l).flatten.map (fun x => (x, gain x))) := by
  intro k
  induction k with
  | zero =>
    intro m l _
    rfl
  | succ k ih =>
    intro m l hne
    have hhead : l.take m ≠ [] := hne (l.take m) (List.mem_cons_self _ _)
    obtain ⟨c, cs, hcc⟩ := List.exists_cons_of_ne_nil hhead
    have hrest : ∀ b ∈ batches k m (l.drop m), b ≠ [] :=
      fun b hb => hne b (List.mem_cons_of_mem _ hb)
    show bestInBatch (((l.take m :: batches k m (l.drop m)).map
        (fun batch => bestInBatch (batch.map (fun x => (x, gain x))))).reduceOption)
      = bestInBatch ((l.take m :: batches k m (l.drop m)).flatten.map (fun x => (x, gain x)))
    rw [List.map_cons, hcc, List.map_cons]
    rw [show bestInBatch ((c, gain c) :: cs.map (fun x => (x, gain x))) =
      some ((cs.map (fun x => (x, gain x))).foldl better (c, gain c)) from rfl]
    rw [List.reduceOption_cons_of_some, bestInBatch_cons, ih m (l.drop m) hrest]
    rw [List.flatten_cons, List.map_append, bestInBatch_append, List.map_cons]
    rfl

/-- Characterization of the single-pass first-wins reduction: the result
splits the list into a strictly-smaller prefix, itself, and a no-larger
suffix. -/
theorem bestInBatch_characterize {α : Type} [LinearOrder α] :
    ∀ (cs : List (SplitCandidate × α)) (c : SplitCandidate × α),
    ∃ l1 l2, c :: cs = l1 ++ (cs.foldl better c) :: l2 ∧
      (∀ p ∈ l1, p.2 < (cs.foldl better c).2) ∧
      (∀ p ∈ c :: cs, p.2 ≤ (cs.foldl better c).2) := by
  intro cs
  induction cs with
  | nil =>
    intro c
    refine ⟨[], [], rfl, ?_, ?_⟩
    · intro p hp
      exact absurd hp (List.not_mem_nil p)
    · intro p hp
      rw [List.mem_singleton] at hp
      subst hp
      exact le_refl _
  | cons d ds ih =>
    intro c
    rw [List.foldl_cons]
    by_cases h1 : c.2 < d.2
    · have hbd : better c d = d := by simp [better, h1]
      rw [hbd]
      obtain ⟨l1, l2, heq, hlt, hle⟩ := ih d
      refine ⟨c :: l1, l2, ?_, ?_, ?_⟩
      · rw [List.cons_append, ← heq]
      · intro p hp
        rcases List.mem_cons.mp hp with rfl | hp2
        · exact lt_of_lt_of_le h1 (hle d (List.mem_cons_self d ds))
        · exact hlt p hp2
      · intro p hp
        rcases List.mem_cons.mp hp with rfl | hp2
        · exact le_of_lt (lt_of_lt_of_le h1 (hle d (List.mem_cons_self d ds)))
        · exact hle p hp2
    · have hbd : better c d = c := by simp [better, h1]
      rw [hbd]
      obtain ⟨l1, l2, heq, hlt, hle⟩ := ih c
      have hdc : d.2 ≤ c.2 := not_lt.mp h1
      have hcle : c.2 ≤ (ds.foldl better c).2 := hle c (List.mem_cons_self c ds)
      cases l1 with
      | nil =>
        rw [List.nil_append] at heq
        injection heq with h2 h3
        refine ⟨[], d :: ds, ?_, ?_, ?_⟩
        · rw [List.nil_append, ← h2]
        · intro p hp
          exact absurd hp (List.not_mem_nil p)
        · intro p hp
          rcases List.mem_cons.mp hp with rfl | hp2
          · exact hcle
          · rcases List.mem_cons.mp hp2 with rfl | hp3
            · exact le_trans hdc hcle
            · exact hle p (List.mem_cons_of_mem c hp3)
      | cons c2 l1' =>
        rw [List.cons_append] at heq
        injection heq with h2 h3
        refine ⟨c :: d :: l1', l2, ?_, ?_, ?_⟩
        · rw [List.cons_append, List.cons_append, ← h3]
        · intro p hp
          have hc2lt : c.2 < (ds.foldl better c).2 := by
            have hh := hlt c2 (List.mem_cons_self c2 l1')
            rwa [← h2] at hh
          rcases List.mem_cons.mp hp with rfl | hp2
          · exact hc2lt
          · rcases List.mem_cons.mp hp2 with rfl | hp3
            · exact lt_of_le_of_lt hdc hc2lt
            · exact hlt p (List.mem_cons_of_mem c2 hp3)
        · intro p hp
          rcases List.mem_cons.mp hp with rfl | hp2
          · exact hcle
          · rcases List.mem_cons.mp hp2 with rfl | hp3
            · exact le_trans hdc hcle
            · exact hle p (List.mem_cons_of_mem c hp3)

/-- C8: over a fixed range and a fixed generated candidate list split into
`k` equal batches of `m`, every worker contributes exactly one result —
`k` results, each `some` pair, even when all gains are equal — and the
reduction returns the candidate of maximum gain with ties broken in favor of
the earliest candidate in generation order: the pair list splits into a
prefix of strictly smaller gains, the winner, and a suffix of no-larger
gains.  The search is a pure function of the candidate list, hence
deterministic for a fixed random sequence. -/
theorem bestSplitCandidate_spec {α : Type} [LinearOrder α] (gain : SplitCandidate → α)
    (k m : ℕ) (cands : List SplitCandidate)
    (hlen : cands.length = k * m) (hm : 0 < m) (hk : 0 < k) :
    (bestSplitThreadFun gain cands k m).length = k ∧
    (∀ r ∈ bestSplitThreadFun gain cands k m, r.isSome = true) ∧
    (∃ best l1 l2, bestSplitCandidate gain cands k m = some best ∧
      cands.map (fun c => (c, gain c)) = l1 ++ best :: l2 ∧
      (∀ p ∈ l1, p.2 < best.2) ∧
      (∀ p ∈ cands.map (fun c => (c, gain c)), p.2 ≤ best.2)) := by
  have hne : ∀ b ∈ batches k m cands, b ≠ [] := by
    intro b hb
    have hbl := batches_batch_length k m cands hlen b hb
    intro hnil
    rw [hnil] at hbl
    simp at hbl
    omega
  refine ⟨?_, ?_, ?_⟩
  · rw [bestSplitThreadFun, List.length_map, batches_length]
  · intro r hr
    rw [bestSplitThreadFun] at hr
    obtain ⟨batch, hbm, rfl⟩ := List.mem_map.mp hr
    obtain ⟨c, cs, rfl⟩ := List.exists_cons_of_ne_nil (hne batch hbm)
    rw [List.map_cons]
    rfl
  · have heq : bestSplitCandidate gain cands k m =
        bestInBatch (cands.map (fun c => (c, gain c))) := by
      rw [bestSplitCandidate, bestSplitThreadFun, reduce_batches gain k m cands hne,
        batches_flatten k m cands hlen]
    obtain ⟨c, cs, rfl⟩ : ∃ c cs, cands = c :: cs := by
      cases cands with
      | nil =>
        rw [List.length_nil] at hlen
        exfalso
        have : 0 < k * m := Nat.mul_pos hk hm
        omega
      | cons c cs => exact ⟨c, cs, rfl⟩
    obtain ⟨l1, l2, hsplit, hlt, hle⟩ :=
      bestInBatch_characterize (cs.map (fun x => (x, gain x))) (c, gain c)
    refine ⟨(cs.map (fun x => (x, gain x))).foldl better (c, gain c), l1, l2, ?_, ?_, hlt, ?_⟩
    · rw [heq, List.map_cons]
      rfl
    · rw [List.map_cons]
      exact hsplit
    · rw [List.map_cons]
      exact hle

/-- C8 witness: the split-search theorem applied to two concrete candidates
in two batches of one, with the threshold as gain. -/
theorem bestSplitCandidate_spec_witness :
    (bestSplitThreadFun (fun c => c.threshold) [phiX, phiY] 2 1).length = 2 ∧
    (∀ r ∈ bestSplitThreadFun (fun c => c.threshold) [phiX, phiY] 2 1, r.isSome = true) ∧
    (∃ best l1 l2, bestSplitCandidate (fun c => c.threshold) [phiX, phiY] 2 1 = some best ∧
      ([phiX, phiY] : List SplitCandidate).map (fun c => (c, c.threshold)) =
        l1 ++ best :: l2 ∧
      (∀ p ∈ l1, p.2 < best.2) ∧
      (∀ p ∈ ([phiX, phiY] : List SplitCandidate).map (fun c => (c, c.threshold)),
        p.2 ≤ best.2)) :=
  bestSplitCandidate_spec (fun c => c.threshold) 2 1 [phiX, phiY] (by decide) (by decide)
    (by decide)

/-- `storeAux` returns the next unused id and emits at least one record. -/
theorem storeAux_length : ∀ (t : Node) (p : Option ℕ) (nid d : ℕ),
    (storeAux t p nid d).2 = nid + (storeAux t p nid d).1.length ∧
    0 < (storeAux t p nid d).1.length := by
  intro t
  induction t with
  | leaf dist =>
    intro p nid d
    exact ⟨rfl, Nat.one_pos⟩
  | node phi l r ihl ihr =>
    intro p nid d
    obtain ⟨hl1, _⟩ := ihl (some nid) (nid + 1) (d + 1)
    obtain ⟨hr1, _⟩ := ihr (some nid) (storeAux l (some nid) (nid + 1) (d + 1)).2 (d + 1)
    constructor
    · show (storeAux r (some nid) (storeAux l (some nid) (nid + 1) (d + 1)).2 (d + 1)).2 =
        nid + ((⟨p, d⟩ : NodeRec) :: ((storeAux l (some nid) (nid + 1) (d + 1)).1 ++
        (storeAux r (some nid) (storeAux l (some nid) (nid + 1) (d + 1)).2 (d + 1)).1)).length
      simp only [List.length_cons, List.length_append]
      omega
    · show 0 < ((⟨p, d⟩ : NodeRec) :: _).length
      simp

/-- Appending one record whose parent link satisfies the store discipline
preserves the store invariant. -/
theorem snoc_inv (pre : List NodeRec) (p : Option ℕ) (d : ℕ)
    (hnone : p = none → pre = [] ∧ d = 0)
    (hsome : ∀ q, p = some q → q < pre.length ∧
      ∃ rq, pre[q]? = some rq ∧ rq.depth + 1 = d)
    (hinv : storeInv pre) :
    storeInv (pre ++ [⟨p, d⟩]) := by
  intro j r hj
  by_cases hjlt : j < pre.length
  · rw [List.getElem?_append_left hjlt] at hj
    obtain ⟨h1, h2⟩ := hinv j r hj
    refine ⟨h1, ?_⟩
    intro q hq
    obtain ⟨hqlt, rq, hrq, hdep⟩ := h2 q hq
    refine ⟨hqlt, rq, ?_, hdep⟩
    rw [List.getElem?_append_left (by omega)]
    exact hrq
  · have hjeq : j = pre.length := by
      by_contra hne2
      have hge : (pre ++ [(⟨p, d⟩ : NodeRec)]).length ≤ j := by
        simp only [List.length_append, List.length_cons, List.length_nil]
        omega
      rw [List.getElem?_eq_none hge] at hj
      exact Option.noConfusion hj
    subst hjeq
    rw [List.getElem?_append_right (le_refl _), Nat.sub_self] at hj
    have hr : (⟨p, d⟩ : NodeRec) = r := Option.some.inj hj
    subst hr
    constructor
    · intro hpn
      obtain ⟨hpre, hd0⟩ := hnone hpn
      constructor
      · rw [hpre]
        rfl
      · exact hd0
    · intro q hq
      obtain ⟨hqlt, rq, hrq, hdep⟩ := hsome q hq
      refine ⟨hqlt, rq, ?_, hdep⟩
      rw [List.getElem?_append_left (by omega)]
      exact hrq

/-- Emitting the store records of a whole subtree preserves the store
invariant, provided the subtree root's parent link satisfies the store
discipline. -/
theorem storeAux_inv : ∀ (t : Node) (pre : List NodeRec) (p : Option ℕ) (d : ℕ),
    (p = none → pre = [] ∧ d = 0) →
    (∀ q, p = some q → q < pre.length ∧
      ∃ rq, pre[q]? = some rq ∧ rq.depth + 1 = d) →
    storeInv pre →
    storeInv (pre ++ (storeAux t p pre.length d).1) := by
  intro t
  induction t with
  | leaf dist =>
    intro pre p d hnone hsome hinv
    exact snoc_inv pre p d hnone hsome hinv
  | node phi l r ihl ihr =>
    intro pre p d hnone hsome hinv
    have hinv1 : storeInv (pre ++ [⟨p, d⟩]) := snoc_inv pre p d hnone hsome hinv
    have hlen1 : (pre ++ [(⟨p, d⟩ : NodeRec)]).length = pre.length + 1 := by
      simp
    have hsome1 : ∀ q, some pre.length = some q → q < (pre ++ [(⟨p, d⟩ : NodeRec)]).length ∧
        ∃ rq, (pre ++ [(⟨p, d⟩ : NodeRec)])[q]? = some rq ∧ rq.depth + 1 = d + 1 := by
      intro q hq
      have hq2 : pre.length = q := Option.some.inj hq
      subst hq2
      refine ⟨by omega, ⟨p, d⟩, ?_, rfl⟩
      rw [List.getElem?_append_right (le_refl _), Nat.sub_self]
      rfl
    have hinv2 := ihl (pre ++ [(⟨p, d⟩ : NodeRec)]) (some pre.length) (d + 1)
      (fun h => Option.noConfusion h) hsome1 hinv1
    rw [hlen1] at hinv2
    obtain ⟨hpl2, _⟩ := storeAux_length l (some pre.length) (pre.length + 1) (d + 1)
    have hlen2 : ((pre ++ [(⟨p, d⟩ : NodeRec)]) ++
        (storeAux l (some pre.length) (pre.length + 1) (d + 1)).1).length =
        (storeAux l (some pre.length) (pre.length + 1) (d + 1)).2 := by
      simp only [List.length_append, List.length_cons, List.length_nil]
      omega
    have hsome2 : ∀ q, some pre.length = some q →
        q < ((pre ++ [(⟨p, d⟩ : NodeRec)]) ++
          (storeAux l (some pre.length) (pre.length + 1) (d + 1)).1).length ∧
        ∃ rq, ((pre ++ [(⟨p, d⟩ : NodeRec)]) ++
          (storeAux l (some pre.length) (pre.length + 1) (d + 1)).1)[q]? = some rq ∧
          rq.depth + 1 = d + 1 := by
      intro q hq
      have hq2 : pre.length = q := Option.some.inj hq
      subst hq2
      refine ⟨by simp only [List.length_append, List.length_cons, List.length_nil]; omega,
        ⟨p, d⟩, ?_, rfl⟩
      rw [List.getElem?_append_left (by simp)]
      rw [List.getElem?_append_right (le_refl _), Nat.sub_self]
      rfl
    have hinv3 := ihr ((pre ++ [(⟨p, d⟩ : NodeRec)]) ++
        (storeAux l (some pre.length) (pre.length + 1) (d + 1)).1)
      (some pre.length) (d + 1) (fun h => Option.noConfusion h) hsome2 hinv2
    rw [hlen2] at hinv3
    have hassoc : pre ++ (storeAux (Node.node phi l r) p pre.length d).1 =
        ((pre ++ [(⟨p, d⟩ : NodeRec)]) ++
          (storeAux l (some pre.length) (pre.length + 1) (d + 1)).1) ++
        (storeAux r (some pre.length)
          (storeAux l (some pre.length) (pre.length + 1) (d + 1)).2 (d + 1)).1 := by
      show pre ++ ((⟨p, d⟩ : NodeRec) ::
          ((storeAux l (some pre.length) (pre.length + 1) (d + 1)).1 ++
           (storeAux r (some pre.length)
             (storeAux l (some pre.length) (pre.length + 1) (d + 1)).2 (d + 1)).1)) = _
      simp [List.append_assoc]
    rw [hassoc]
    exact hinv3

/-- The empty store satisfies the store invariant. -/
theorem storeInv_nil : storeInv [] := by
  intro j r hj
  rw [List.getElem?_nil] at hj
  exact Option.noConfusion hj

/-- The node store of every tree satisfies the store invariant. -/
theorem storeOf_inv (t : Node) : storeInv (storeOf t) := by
  have h := storeAux_inv t [] none 0 (fun _ => ⟨rfl, rfl⟩)
    (fun q hq => Option.noConfusion hq) storeInv_nil
  simpa [storeOf] using h

/-- `getDepth` on a parentless record. -/
theorem getDepth_root (L : List NodeRec) (j : ℕ) (r : NodeRec)
    (hj : L[j]? = some r) (hp : r.parent = none) : getDepth L j = 0 := by
  rw [getDepth, hj]
  simp [hp]

/-- `getDepth` steps once along a backwards parent link. -/
theorem getDepth_step (L : List NodeRec) (j q : ℕ) (r : NodeRec)
    (hj : L[j]? = some r) (hp : r.parent = some q) (hq : q < j) :
    getDepth L j = getDepth L q + 1 := by
  rw [getDepth, hj]
  simp [hp, hq]

/-- On an invariant store, traversing parent links counts exactly the
recorded creation depth. -/
theorem getDepth_eq_depth (L : List NodeRec) (hinv : storeInv L) :
    ∀ (j : ℕ) (r : NodeRec), L[j]? = some r → getDepth L j = r.depth := by
  intro j
  induction j using Nat.strong_induction_on with
  | _ j ih =>
    intro r hj
    cases hp : r.parent with
    | none =>
      rw [getDepth_root L j r hj hp]
      exact (((hinv j r hj).1) hp).2.symm
    | some q =>
      obtain ⟨hqlt, rq, hrq, hdep⟩ := (hinv j r hj).2 q hp
      rw [getDepth_step L j q r hj hp hqlt, ih q hqlt rq hrq, hdep]

/-- C10: in the node store of every constructed tree, each node carries a
parent back-pointer; `getDepth` — which walks parent links upward — returns
exactly the depth the recursion recorded when the node was created, i.e. the
number of edges up to the root; parent links always point strictly backwards
(so the chain is acyclic and terminates), and only the root record (index
`0`, depth `0`) is parentless. -/
theorem getDepth_spec (t : Node) :
    ∀ (j : ℕ) (r : NodeRec), (storeOf t)[j]? = some r →
      getDepth (storeOf t) j = r.depth ∧
      (r.parent = none → j = 0 ∧ r.depth = 0) ∧
      (∀ q, r.parent = some q → q < j) := by
  intro j r hj
  have hinv := storeOf_inv t
  refine ⟨getDepth_eq_depth (storeOf t) hinv j r hj, (hinv j r hj).1, ?_⟩
  intro q hq
  exact ((hinv j r hj).2 q hq).1

/-- C10 witness: the depth theorem applied to the left child of a concrete
two-leaf tree. -/
theorem getDepth_spec_witness :
    (storeOf (Node.node phi0 (Node.leaf []) (Node.leaf [])))[1]? =
      some (⟨some 0, 1⟩ : NodeRec) ∧
    (getDepth (storeOf (Node.node phi0 (Node.leaf []) (Node.leaf []))) 1 =
      (⟨some 0, 1⟩ : NodeRec).depth ∧
    ((⟨some 0, 1⟩ : NodeRec).parent = none → 1 = 0 ∧ (⟨some 0, 1⟩ : NodeRec).depth = 0) ∧
    (∀ q, (⟨some 0, 1⟩ : NodeRec).parent = some q → q < 1)) :=
  ⟨by decide, getDepth_spec (Node.node phi0 (Node.leaf []) (Node.leaf [])) 1 ⟨some 0, 1⟩
    (by decide)⟩

end rdf
